import Mathlib

/-!
Verification of the voxel world model of the `peter-hunt/minecraft` repository.

This file gives a shallow embedding of the world-store code of `model.py`
together with the helpers of `functions.py`, and proves the specified
properties about it.  Python dictionaries are modelled as association lists
(insertion ordered, unique keys in every reachable state), Python numbers as
rationals, and Python exceptions (`KeyError` from `del d[k]` / `d.pop(k)`,
`ValueError` from `list.remove`) as `Option`-valued operations returning
`none`.
-/

set_option autoImplicit false

namespace Minecraft

/-- Integer block position `(x, y, z)`, the canonical address of a unit cube. -/
abbrev Pos := Int × Int × Int

/-- A continuous (player-space) coordinate triple; Python floats are modelled
as rationals. -/
abbrev Vec3 := ℚ × ℚ × ℚ

/-- Componentwise addition of a face offset to a position. -/
def padd (p d : Pos) : Pos := (p.1 + d.1, p.2.1 + d.2.1, p.2.2 + d.2.2)

/-- Componentwise negation of a face offset. -/
def pneg (d : Pos) : Pos := (-d.1, -d.2.1, -d.2.2)

section AList

variable {κ : Type} {α : Type} [DecidableEq κ]

/-- The keys of an association list, in order (a Python `dict` preserves
insertion order). -/
def keys (l : List (κ × α)) : List κ := l.map Prod.fst

/-- Python `d[k]` / `d.get(k)`: value at the first matching key. -/
def alLookup (l : List (κ × α)) (k : κ) : Option α :=
  match l with
  | [] => none
  | (k', v) :: t => if k' = k then some v else alLookup t k

/-- Python `d[k] = v`: replace the value at an existing key in place, or
append a fresh key at the end. -/
def alInsert (k : κ) (v : α) (l : List (κ × α)) : List (κ × α) :=
  match l with
  | [] => [(k, v)]
  | (k', v') :: t => if k' = k then (k, v) :: t else (k', v') :: alInsert k v t

/-- Removal of the first entry with the given key (the effect of Python
`del d[k]` on the entry list, when the key is present). -/
def alErase (k : κ) (l : List (κ × α)) : List (κ × α) :=
  match l with
  | [] => []
  | (k', v') :: t => if k' = k then t else (k', v') :: alErase k t

/-- Python `d.pop(k)`: the value and the remaining entries, `none` (a
`KeyError`) when the key is absent. -/
def alPop (k : κ) (l : List (κ × α)) : Option (α × List (κ × α)) :=
  match alLookup l k with
  | none => none
  | some v => some (v, alErase k l)

end AList

/-- Python `list.remove`: drop the first occurrence of an element.  The
`ValueError` raised on a missing element is checked separately by callers. -/
def listRemove (p : Pos) : List Pos → List Pos
  | [] => []
  | q :: t => if q = p then t else q :: listRemove p t

/-- Number of occurrences of a position in a list. -/
def pcount (p : Pos) : List Pos → Nat
  | [] => 0
  | q :: t => (if q = p then 1 else 0) + pcount p t

/-- Modelled from the spec: `constants.py` is not part of `src/`; this is the
sector size constant (`CHUNK_SIZE` in the code, `SECTOR_SIZE` in the spec).
No claim depends on its numeric value. -/
def CHUNK_SIZE : Int := 16

/-- The fixed world seed (`main.py`). -/
def WORLD_SEED : Int := 3

/-- The six face offsets, in source order (`FACES`). -/
def FACES : List Pos :=
  [(0, 1, 0), (0, -1, 0), (-1, 0, 0), (1, 0, 0), (0, 0, 1), (0, 0, -1)]

/-- Python `math.floor` on a rational. -/
def qfloor (q : ℚ) : Int := q.num.fdiv (q.den : Int)

/-- Python `round` on a real number: round half to even (banker's rounding). -/
def pyRound (q : ℚ) : Int :=
  let f := qfloor q
  let r := q - (f : ℚ)
  if r < 1/2 then f
  else if 1/2 < r then f + 1
  else if f % 2 = 0 then f else f + 1

/-- The `normalize` helper of `functions.py`: the block containing an
arbitrary-precision position. -/
def normalize (position : Vec3) : Pos :=
  (pyRound position.1, pyRound position.2.1, pyRound position.2.2)

/-- The `sectorize` helper of `functions.py`, specialized to the integer block
positions the model passes it (`normalize` is the identity on integers).
Python `//` is floor division, hence `Int.fdiv`. -/
def sectorize (position : Pos) : Pos :=
  (position.1.fdiv CHUNK_SIZE, 0, position.2.2.fdiv CHUNK_SIZE)

/-- The `tex_coord` helper of `functions.py`: bounding vertices of one texture
square of the atlas. -/
def tex_coord (x y : Int) (n : Int := 4) : List ℚ :=
  let m : ℚ := 1 / (n : ℚ)
  let dx : ℚ := (x : ℚ) * m
  let dy : ℚ := (y : ℚ) * m
  [dx, dy, dx + m, dy, dx + m, dy + m, dx, dy + m]

/-- The `tex_coords` helper of `functions.py`: texture squares for the top,
bottom and the four sides. -/
def tex_coords (top bottom side : Int × Int) : List (List ℚ) :=
  let t := tex_coord top.1 top.2
  let b := tex_coord bottom.1 bottom.2
  let s := tex_coord side.1 side.2
  [t, b, s, s, s, s]

/-- A texture-coordinate descriptor (the values of the `BLOCKS` table). -/
abbrev Coords := List (List ℚ)

/-- The `BLOCKS` table of `model.py`. -/
def BLOCKS : List (String × Coords) :=
  [("dirt", tex_coords (0, 1) (0, 1) (0, 1)),
   ("grass_block", tex_coords (1, 0) (0, 1) (0, 0)),
   ("sand", tex_coords (1, 1) (1, 1) (1, 1)),
   ("bricks", tex_coords (2, 0) (2, 0) (2, 0)),
   ("bedrock", tex_coords (2, 1) (2, 1) (2, 1))]

/-- The `cube_vertices` helper of `functions.py`. -/
def cube_vertices (x y z n : ℚ) : List ℚ :=
  [x-n, y+n, z-n, x-n, y+n, z+n, x+n, y+n, z+n, x+n, y+n, z-n,
   x-n, y-n, z-n, x+n, y-n, z-n, x+n, y-n, z+n, x-n, y-n, z+n,
   x-n, y-n, z-n, x-n, y-n, z+n, x-n, y+n, z+n, x-n, y+n, z-n,
   x+n, y-n, z+n, x+n, y-n, z-n, x+n, y+n, z-n, x+n, y+n, z+n,
   x-n, y-n, z+n, x+n, y-n, z+n, x+n, y+n, z+n, x-n, y+n, z+n,
   x+n, y-n, z-n, x-n, y-n, z-n, x-n, y+n, z-n, x+n, y+n, z-n]

/-- A deferred visibility-queue entry: the `(func, args)` closures of
`model.py` are the calls `_show_block(position, coords)` and
`_hide_block(position)`. -/
inductive QOp : Type
  | showOp (position : Pos) (coords : Coords)
  | hideOp (position : Pos)
deriving DecidableEq

/-- The state of `Model` (`model.py`): the sparse block map `world`, the
`shown` texture map, the `_shown` geometry-handle map, the rendering batch
(live vertex lists, each tagged with a fresh id, its position and its data),
the sector buckets and the deferred visibility queue. -/
structure Model : Type where
  world : List (Pos × String)
  shown : List (Pos × Coords)
  handles : List (Pos × Nat)
  batch : List (Nat × Pos × List ℚ × List ℚ)
  nextId : Nat
  sectors : List (Pos × List Pos)
  queue : List QOp
deriving DecidableEq

/-- The state of a freshly constructed world store, before terrain
generation populates it. -/
def Model.empty : Model :=
  { world := [], shown := [], handles := [], batch := [], nextId := 0,
    sectors := [], queue := [] }

/-- The `_enqueue` method. -/
def _enqueue (m : Model) (op : QOp) : Model := { m with queue := m.queue ++ [op] }

/-- Membership of a position in `world` (`position in self.world`). -/
def inWorldB (m : Model) (p : Pos) : Bool := (alLookup m.world p).isSome

/-- Membership of a position in `shown` (`position in self.shown`). -/
def isShownB (m : Model) (p : Pos) : Bool := (alLookup m.shown p).isSome

/-- The sector bucket for a sector key (`self.sectors.get(sector, [])`). -/
def bucketOf (m : Model) (s : Pos) : List Pos := (alLookup m.sectors s).getD []

/-- The `exposed` method: true iff at least one of the 6 face-adjacent
positions is absent from `world`. -/
def exposed (m : Model) (position : Pos) : Bool :=
  FACES.any (fun d => !(inWorldB m (padd position d)))

/-- The `_show_block` method: allocate a vertex list in the batch and record
its handle. -/
def _show_block (m : Model) (position : Pos) (coords : Coords) : Model :=
  let vertex_data := cube_vertices (position.1 : ℚ) (position.2.1 : ℚ) (position.2.2 : ℚ) (1/2)
  let coords_data := coords.foldl (· ++ ·) []
  { m with handles := alInsert position m.nextId m.handles,
           batch := m.batch ++ [(m.nextId, position, vertex_data, coords_data)],
           nextId := m.nextId + 1 }

/-- The `show_block` method: record the texture descriptor in `shown`, then
materialize immediately or enqueue the deferred `_show_block`.  Fails
(`KeyError`) when the position is absent from `world` or its block name is
absent from `BLOCKS`. -/
def show_block (m : Model) (position : Pos) (immediate : Bool := true) : Option Model :=
  match alLookup m.world position with
  | none => none
  | some name =>
    match alLookup BLOCKS name with
    | none => none
    | some coords =>
      let m' := { m with shown := alInsert position coords m.shown }
      if immediate then some (_show_block m' position coords)
      else some (_enqueue m' (QOp.showOp position coords))

/-- The `_hide_block` method: release the geometry handle.  Fails
(`KeyError`) when no handle exists for the position. -/
def _hide_block (m : Model) (position : Pos) : Option Model :=
  match alPop position m.handles with
  | none => none
  | some pr =>
    some { m with handles := pr.2, batch := m.batch.filter (fun e => !(e.1 = pr.1)) }

/-- The `hide_block` method: drop the position from `shown`, then
dematerialize immediately or enqueue the deferred `_hide_block`.  Fails
(`KeyError`) when the position is not shown. -/
def hide_block (m : Model) (position : Pos) (immediate : Bool := true) : Option Model :=
  match alPop position m.shown with
  | none => none
  | some pr =>
    let m' := { m with shown := pr.2 }
    if immediate then _hide_block m' position
    else some (_enqueue m' (QOp.hideOp position))

/-- One iteration of the `check_neighbors` loop, for one face-adjacent key. -/
def check_neighbors_step (m : Model) (key : Pos) : Option Model :=
  if inWorldB m key = false then some m
  else if exposed m key then
    if isShownB m key then some m else show_block m key
  else
    if isShownB m key then hide_block m key else some m

/-- The six face-adjacent positions of a position, in `FACES` order. -/
def neighbors (position : Pos) : List Pos := FACES.map (padd position)

/-- The `check_neighbors` method: restore the visual state of the six
face-adjacent positions after a local edit. -/
def check_neighbors (m : Model) (position : Pos) : Option Model :=
  (neighbors position).foldlM check_neighbors_step m

/-- The `remove_block` method.  `del self.world[position]` raises `KeyError`
when the position is absent, and `bucket.remove(position)` raises when the
bucket misses it; then, when `immediate`, the block is hidden if shown and the
neighbors revalidated. -/
def remove_block (m : Model) (position : Pos) (immediate : Bool := true) : Option Model :=
  match alLookup m.world position with
  | none => none
  | some _ =>
    let m₁ := { m with world := alErase position m.world }
    let sector := sectorize position
    match alLookup m₁.sectors sector with
    | none => none
    | some bucket =>
      if position ∈ bucket then
        let m₂ := { m₁ with sectors := alInsert sector (listRemove position bucket) m₁.sectors }
        if immediate then
          (if isShownB m₂ position then hide_block m₂ position else some m₂).bind
            (fun m₃ => check_neighbors m₃ position)
        else some m₂
      else none

/-- The body of `add_block` after the occupied-position replace: insert into
`world` and the sector bucket, then, when `immediate`, show the block if
exposed and revalidate the neighbors. -/
def add_block_core (m : Model) (position : Pos) (name : String) (immediate : Bool) : Option Model :=
  let m₁ := { m with world := alInsert position name m.world }
  let sector := sectorize position
  let bucket := bucketOf m₁ sector
  let m₂ := { m₁ with sectors := alInsert sector (bucket ++ [position]) m₁.sectors }
  if immediate then
    (if exposed m₂ position then show_block m₂ position else some m₂).bind
      (fun m₃ => check_neighbors m₃ position)
  else some m₂

/-- The `add_block` method: an occupied position is first fully removed
(replace semantics), then the core insertion runs. -/
def add_block (m : Model) (position : Pos) (name : String) (immediate : Bool := true) : Option Model :=
  (if inWorldB m position then remove_block m position immediate else some m).bind
    (fun m' => add_block_core m' position name immediate)

/-- The `show_sector` method: deferred-show every not-yet-shown exposed
position of the sector's bucket. -/
def show_sector (m : Model) (sector : Pos) : Option Model :=
  (bucketOf m sector).foldlM
    (fun m' position =>
      if (!(isShownB m' position)) && exposed m' position then show_block m' position false
      else some m') m

/-- The `hide_sector` method: deferred-hide every shown position of the
sector's bucket. -/
def hide_sector (m : Model) (sector : Pos) : Option Model :=
  (bucketOf m sector).foldlM
    (fun m' position =>
      if isShownB m' position then hide_block m' position false else some m') m

/-- Python `range(lo, hi)` over integers. -/
def irange (lo hi : Int) : List Int :=
  (List.range (hi - lo).toNat).map (fun i => lo + (i : Int))

/-- The padded disc-shaped neighborhood of a sector built by
`change_sectors` (`pad = 4`, `dy` ranges over `(0,)` only, offsets with
squared norm greater than `(pad + 1) ** 2` are skipped). -/
def nbhd (s : Pos) : List Pos :=
  ((irange (-4) 5).map (fun dx =>
    ([(0 : Int)].map (fun dy =>
      (irange (-4) 5).filterMap (fun dz =>
        if dx ^ 2 + dy ^ 2 + dz ^ 2 > 25 then none
        else some (s.1 + dx, s.2.1 + dy, s.2.2 + dz)))).flatten)).flatten

/-- The padded neighborhood of an optional sector; a `None` argument (falsy
in Python) contributes an empty set. -/
def optNbhd : Option Pos → List Pos
  | none => []
  | some s => nbhd s

/-- The sectors only in the new neighborhood (`show = after_set - before_set`). -/
def csShowList (before after : Option Pos) : List Pos :=
  (optNbhd after).filter (fun s => s ∉ optNbhd before)

/-- The sectors only in the old neighborhood (`hide = before_set - after_set`). -/
def csHideList (before after : Option Pos) : List Pos :=
  (optNbhd before).filter (fun s => s ∉ optNbhd after)

/-- The `change_sectors` method: show the sectors only in the new padded
neighborhood, then hide the sectors only in the old one.  Python iterates the
two difference sets in unspecified set order; here they are iterated in
construction order (no claim depends on the order). -/
def change_sectors (m : Model) (before after : Option Pos) : Option Model :=
  ((csShowList before after).foldlM (fun m' s => show_sector m' s) m).bind
    (fun m' => (csHideList before after).foldlM (fun m'' s => hide_sector m'' s) m')

/-- The `hit_test` ray-march loop: step along the direction in 1/8-block
increments (the source's local `m = 8`), rounding to the nearest block
position, deduplicating against the immediately preceding step. -/
def hit_testLoop (m : Model) (dx dy dz : ℚ) :
    Nat → ℚ → ℚ → ℚ → Option Pos → Option Pos × Option Pos
  | 0, _, _, _, _ => (none, none)
  | n + 1, x, y, z, previous =>
    let key := normalize (x, y, z)
    if some key ≠ previous ∧ inWorldB m key = true then (some key, previous)
    else hit_testLoop m dx dy dz n (x + dx/8) (y + dy/8) (z + dz/8) (some key)

/-- The `hit_test` method: line-of-sight search over `max_distance * 8`
steps; returns the first world block stepped onto together with the previous
stepped block, or `(none, none)`. -/
def hit_test (m : Model) (position vector : Vec3) (max_distance : Nat := 8) :
    Option Pos × Option Pos :=
  hit_testLoop m vector.1 vector.2.1 vector.2.2 (max_distance * 8)
    position.1 position.2.1 position.2.2 none

/-- One column of `generate_terrain`: bedrock at height 0, dirt for heights
`1 ≤ h < y`, grass at height `y`. -/
def terrainColumn (m : Model) (x z y : Int) : Option Model :=
  (add_block m (x, 0, z) "bedrock" false).bind (fun m₁ =>
    ((irange 1 y).foldlM (fun m' h => add_block m' (x, h, z) "dirt" false) m₁).bind
      (fun m₂ => add_block m₂ (x, y, z) "grass_block" false))

/-- The `generate_terrain` method, parameterized by the three seeded noise
fields: for each column of the 129 × 129 region, the height is the floored
weighted sum of the three noise samples. -/
def generate_terrain (noise1 noise2 noise3 : ℚ × ℚ → ℚ) (m : Model) : Option Model :=
  let n : Int := 64
  (irange (-n) (n + 1)).foldlM (fun (mx : Model) (x : Int) =>
    (irange (-n) (n + 1)).foldlM (fun (mz : Model) (z : Int) =>
      let y : ℚ := 15 + noise1 ((x : ℚ)/150, (z : ℚ)/150) * 8
                      + noise2 ((x : ℚ)/700, (z : ℚ)/700) * 15
                      + noise3 ((x : ℚ)/2000, (z : ℚ)/32000) * 30
      terrainColumn mz x z (qfloor y)) mx) m

/-- Modelled from the spec: `PerlinNoise` is an external collaborator (the
`perlin_noise` library, not part of `src/`); a seeded generator is a
deterministic scalar field, modelled as an arbitrary function of its
`octaves` and `seed` parameters.  `generate_terrain` instantiates it at seeds
`seed`, `seed + 1`, `seed + 2` with octaves 7, 9, 10. -/
def generateTerrainSeeded (sample : Nat → Int → ℚ × ℚ → ℚ) (seed : Int) (m : Model) :
    Option Model :=
  generate_terrain (sample 7 seed) (sample 9 (seed + 1)) (sample 10 (seed + 2)) m

/-- Well-formedness: the entry lists modelling the `world` and `shown`
dictionaries have unique keys, as Python dictionaries do by construction. -/
def WF (m : Model) : Prop := (keys m.world).Nodup ∧ (keys m.shown).Nodup

/-- The shown-set invariant of the spec, in bounded (decidable) form: every
shown position is a present, exposed world position, and every exposed world
position is shown. -/
def Inv (m : Model) : Prop :=
  (∀ e ∈ m.shown, inWorldB m e.1 = true ∧ exposed m e.1 = true) ∧
  (∀ e ∈ m.world, exposed m e.1 = true → isShownB m e.1 = true)

/-- Every shown position has a live geometry handle, i.e. no deferred
`_show_block` is pending for it. -/
def Handled (m : Model) : Prop := ∀ e ∈ m.shown, e.1 ∈ keys m.handles

/-- Every block name stored in the world resolves in the `BLOCKS` table. -/
def NamesOK (m : Model) : Prop := ∀ e ∈ m.world, (alLookup BLOCKS e.2).isSome = true

/-- The sector invariant, in bounded (decidable) form: every world position
occurs exactly once in its derived sector's bucket, and every bucket entry is
a world position lying in that sector. -/
def SInv (m : Model) : Prop :=
  (∀ e ∈ m.world, pcount e.1 (bucketOf m (sectorize e.1)) = 1) ∧
  (∀ se ∈ m.sectors, ∀ q ∈ bucketOf m se.1, inWorldB m q = true ∧ se.1 = sectorize q)

/-- The sector invariant in pointwise counting form. -/
def SCount (m : Model) : Prop :=
  ∀ p s, pcount p (bucketOf m s) =
    if inWorldB m p = true ∧ s = sectorize p then 1 else 0

instance (m : Model) : Decidable (WF m) :=
  decidable_of_iff ((keys m.world).Nodup ∧ (keys m.shown).Nodup) Iff.rfl

instance (m : Model) : Decidable (Inv m) :=
  decidable_of_iff
    ((∀ e ∈ m.shown, inWorldB m e.1 = true ∧ exposed m e.1 = true) ∧
      ∀ e ∈ m.world, exposed m e.1 = true → isShownB m e.1 = true) Iff.rfl

instance (m : Model) : Decidable (Handled m) :=
  decidable_of_iff (∀ e ∈ m.shown, e.1 ∈ keys m.handles) Iff.rfl

instance (m : Model) : Decidable (NamesOK m) :=
  decidable_of_iff (∀ e ∈ m.world, (alLookup BLOCKS e.2).isSome = true) Iff.rfl

instance (m : Model) : Decidable (SInv m) :=
  decidable_of_iff
    ((∀ e ∈ m.world, pcount e.1 (bucketOf m (sectorize e.1)) = 1) ∧
      ∀ se ∈ m.sectors, ∀ q ∈ bucketOf m se.1,
        inWorldB m q = true ∧ se.1 = sectorize q) Iff.rfl

/-- A public mutation of the world store. -/
inductive WorldOp : Type
  | add (position : Pos) (name : String) (immediate : Bool)
  | remove (position : Pos) (immediate : Bool)

/-- Run one public mutation. -/
def applyOp (m : Model) : WorldOp → Option Model
  | WorldOp.add p n i => add_block m p n i
  | WorldOp.remove p i => remove_block m p i

/-- Run a sequence of public mutations. -/
def applySeq (ops : List WorldOp) (m : Model) : Option Model :=
  ops.foldlM applyOp m

/-- A concrete one-block state used by the witnesses: a dirt block at the
origin, added immediately to the empty store. -/
def mOne : Model := (add_block Model.empty (0, 0, 0) "dirt" true).getD Model.empty

/-- The store reached by one deferred dirt add at the origin. -/
def mDef : Model :=
  (add_block Model.empty (0, 0, 0) "dirt" false).getD Model.empty

/-- A concrete sequence of deferred mutations used by the C3 witness. -/
def opsW : List WorldOp :=
  [WorldOp.add (0, 0, 0) "dirt" false, WorldOp.add (16, 0, -1) "sand" false,
   WorldOp.remove (0, 0, 0) false]

/-- The store reached by running `opsW` from the empty store. -/
def mSeq : Model := (applySeq opsW Model.empty).getD Model.empty

/-! ### Association-list lemmas -/

section AListLemmas

variable {κ α : Type} [DecidableEq κ]

theorem alLookup_insert_self (k : κ) (v : α) (l : List (κ × α)) :
    alLookup (alInsert k v l) k = some v := by
  induction l with
  | nil => simp [alInsert, alLookup]
  | cons e t ih =>
    obtain ⟨k', v'⟩ := e
    by_cases h : k' = k
    · simp [alInsert, if_pos h, alLookup]
    · simp only [alInsert, if_neg h, alLookup, if_neg h, ih]

theorem alLookup_insert_ne {k k₂ : κ} (v : α) (l : List (κ × α)) (h : k₂ ≠ k) :
    alLookup (alInsert k v l) k₂ = alLookup l k₂ := by
  have hk2 : ¬k = k₂ := fun he => h he.symm
  induction l with
  | nil => simp only [alInsert, alLookup, if_neg hk2]
  | cons e t ih =>
    obtain ⟨k', v'⟩ := e
    by_cases hk : k' = k
    · rw [alInsert, if_pos hk, alLookup, alLookup, if_neg (hk ▸ hk2), if_neg (hk ▸ hk2)]
    · by_cases h2 : k' = k₂
      · rw [alInsert, if_neg hk, alLookup, if_pos h2, alLookup, if_pos h2]
      · rw [alInsert, if_neg hk, alLookup, if_neg h2, alLookup, if_neg h2, ih]

theorem alLookup_erase_ne {k k₂ : κ} (l : List (κ × α)) (h : k₂ ≠ k) :
    alLookup (alErase k l) k₂ = alLookup l k₂ := by
  induction l with
  | nil => simp [alErase]
  | cons e t ih =>
    obtain ⟨k', v'⟩ := e
    by_cases hk : k' = k
    · rw [alErase, if_pos hk, alLookup, if_neg (fun h2 : k' = k₂ => h (hk ▸ h2).symm)]
    · by_cases h2 : k' = k₂
      · rw [alErase, if_neg hk, alLookup, if_pos h2, alLookup, if_pos h2]
      · rw [alErase, if_neg hk, alLookup, if_neg h2, alLookup, if_neg h2, ih]

theorem alLookup_isSome_iff {l : List (κ × α)} {k : κ} :
    (alLookup l k).isSome = true ↔ k ∈ keys l := by
  induction l with
  | nil => simp [alLookup, keys]
  | cons e t ih =>
    obtain ⟨k', v'⟩ := e
    rw [keys, List.map_cons, List.mem_cons]
    by_cases h : k' = k
    · rw [alLookup, if_pos h]
      simp [h]
    · rw [alLookup, if_neg h, keys] at *
      constructor
      · intro hs
        exact Or.inr (ih.mp hs)
      · rintro (he | hm)
        · exact absurd he.symm h
        · exact ih.mpr hm

theorem alLookup_eq_none_of_not_mem {l : List (κ × α)} {k : κ} (h : k ∉ keys l) :
    alLookup l k = none := by
  cases hl : alLookup l k with
  | none => rfl
  | some v => exact absurd (alLookup_isSome_iff.mp (by simp [hl])) h

theorem alLookup_erase_self {l : List (κ × α)} {k : κ} (hnd : (keys l).Nodup) :
    alLookup (alErase k l) k = none := by
  induction l with
  | nil => simp [alErase, alLookup]
  | cons e t ih =>
    obtain ⟨k', v'⟩ := e
    rw [keys, List.map_cons, List.nodup_cons] at hnd
    by_cases h : k' = k
    · rw [alErase, if_pos h]
      exact alLookup_eq_none_of_not_mem (h ▸ hnd.1)
    · rw [alErase, if_neg h, alLookup, if_neg h]
      exact ih hnd.2

theorem alLookup_eq_some_mem {l : List (κ × α)} {k : κ} {v : α}
    (h : alLookup l k = some v) : (k, v) ∈ l := by
  induction l with
  | nil => simp [alLookup] at h
  | cons e t ih =>
    obtain ⟨k', v'⟩ := e
    by_cases hk : k' = k
    · rw [alLookup, if_pos hk, Option.some.injEq] at h
      subst hk
      subst h
      exact List.mem_cons_self _ _
    · rw [alLookup, if_neg hk] at h
      exact List.mem_cons_of_mem _ (ih h)

theorem mem_lookup_isSome {l : List (κ × α)} {e : κ × α} (h : e ∈ l) :
    (alLookup l e.1).isSome = true :=
  alLookup_isSome_iff.mpr (List.mem_map_of_mem Prod.fst h)

theorem mem_keys_insert {l : List (κ × α)} {k k₂ : κ} {v : α} :
    k₂ ∈ keys (alInsert k v l) ↔ k₂ = k ∨ k₂ ∈ keys l := by
  induction l with
  | nil => simp [alInsert, keys]
  | cons e t ih =>
    obtain ⟨k', v'⟩ := e
    by_cases h : k' = k
    · rw [alInsert, if_pos h, keys, List.map_cons, keys, List.map_cons,
        List.mem_cons, List.mem_cons]
      rw [h]
      tauto
    · rw [alInsert, if_neg h, keys, List.map_cons, keys, List.map_cons,
        List.mem_cons, List.mem_cons]
      rw [keys] at ih
      rw [ih]
      tauto

theorem keys_insert_nodup {l : List (κ × α)} {k : κ} {v : α}
    (hnd : (keys l).Nodup) : (keys (alInsert k v l)).Nodup := by
  induction l with
  | nil => simp [alInsert, keys]
  | cons e t ih =>
    obtain ⟨k', v'⟩ := e
    rw [keys, List.map_cons, List.nodup_cons] at hnd
    by_cases h : k' = k
    · rw [alInsert, if_pos h, keys, List.map_cons, List.nodup_cons]
      exact ⟨h ▸ hnd.1, hnd.2⟩
    · rw [alInsert, if_neg h, keys, List.map_cons, List.nodup_cons]
      refine ⟨fun hm => ?_, ih hnd.2⟩
      rcases mem_keys_insert.mp hm with he | hm'
      · exact h he
      · exact hnd.1 hm'

theorem mem_erase_sub {l : List (κ × α)} {k : κ} {e : κ × α}
    (h : e ∈ alErase k l) : e ∈ l := by
  induction l with
  | nil => simp [alErase] at h
  | cons e' t ih =>
    obtain ⟨k', v'⟩ := e'
    by_cases hk : k' = k
    · rw [alErase, if_pos hk] at h
      exact List.mem_cons_of_mem _ h
    · rw [alErase, if_neg hk, List.mem_cons] at h
      rcases h with h | h
      · exact h ▸ List.mem_cons_self _ _
      · exact List.mem_cons_of_mem _ (ih h)

theorem mem_keys_erase_sub {l : List (κ × α)} {k k₂ : κ}
    (h : k₂ ∈ keys (alErase k l)) : k₂ ∈ keys l := by
  rw [keys, List.mem_map] at h ⊢
  obtain ⟨e, he, hk⟩ := h
  exact ⟨e, mem_erase_sub he, hk⟩

theorem keys_erase_nodup {l : List (κ × α)} {k : κ}
    (hnd : (keys l).Nodup) : (keys (alErase k l)).Nodup := by
  induction l with
  | nil => simp [alErase, keys]
  | cons e t ih =>
    obtain ⟨k', v'⟩ := e
    rw [keys, List.map_cons, List.nodup_cons] at hnd
    by_cases h : k' = k
    · rw [alErase, if_pos h]
      exact hnd.2
    · rw [alErase, if_neg h, keys, List.map_cons, List.nodup_cons]
      exact ⟨fun hm => hnd.1 (mem_keys_erase_sub hm), ih hnd.2⟩

theorem ne_of_mem_erase_nodup {l : List (κ × α)} {k : κ} {e : κ × α}
    (hnd : (keys l).Nodup) (h : e ∈ alErase k l) : e.1 ≠ k := by
  induction l with
  | nil => simp [alErase] at h
  | cons e' t ih =>
    obtain ⟨k', v'⟩ := e'
    rw [keys, List.map_cons, List.nodup_cons] at hnd
    by_cases hk : k' = k
    · rw [alErase, if_pos hk] at h
      intro he
      have hm : e.1 ∈ List.map Prod.fst t := List.mem_map_of_mem Prod.fst h
      rw [he, ← hk] at hm
      exact hnd.1 hm
    · rw [alErase, if_neg hk, List.mem_cons] at h
      rcases h with h | h
      · rw [h]
        exact hk
      · exact ih hnd.2 h

theorem mem_insert_cases {l : List (κ × α)} {k : κ} {v : α} {e : κ × α}
    (h : e ∈ alInsert k v l) : e = (k, v) ∨ e ∈ l := by
  induction l with
  | nil => simpa [alInsert] using h
  | cons e' t ih =>
    obtain ⟨k', v'⟩ := e'
    by_cases hk : k' = k
    · rw [alInsert, if_pos hk, List.mem_cons] at h
      rcases h with h | h
      · exact Or.inl h
      · exact Or.inr (List.mem_cons_of_mem _ h)
    · rw [alInsert, if_neg hk, List.mem_cons] at h
      rcases h with h | h
      · exact Or.inr (h ▸ List.mem_cons_self _ _)
      · rcases ih h with h' | h'
        · exact Or.inl h'
        · exact Or.inr (List.mem_cons_of_mem _ h')

end AListLemmas

/-! ### List counting lemmas -/

theorem pcount_eq_zero {p : Pos} {l : List Pos} : pcount p l = 0 ↔ p ∉ l := by
  induction l with
  | nil => simp [pcount]
  | cons q t ih =>
    by_cases h : q = p
    · subst h
      simp [pcount]
    · rw [pcount, if_neg h, List.mem_cons]
      rw [Nat.zero_add, ih]
      constructor
      · rintro hn (he | hm)
        · exact h he.symm
        · exact hn hm
      · intro hn hm
        exact hn (Or.inr hm)

theorem pcount_listRemove_self (p : Pos) (l : List Pos) :
    pcount p (listRemove p l) = pcount p l - 1 := by
  induction l with
  | nil => simp [listRemove, pcount]
  | cons q t ih =>
    by_cases h : q = p
    · rw [listRemove, if_pos h, pcount, if_pos h]
      omega
    · rw [listRemove, if_neg h, pcount, if_neg h, pcount, if_neg h, Nat.zero_add,
        Nat.zero_add, ih]

theorem pcount_listRemove_ne {q p : Pos} (l : List Pos) (h : q ≠ p) :
    pcount q (listRemove p l) = pcount q l := by
  induction l with
  | nil => simp [listRemove]
  | cons r t ih =>
    by_cases hr : r = p
    · rw [listRemove, if_pos hr, pcount, if_neg (fun he : r = q => h (hr ▸ he).symm),
        Nat.zero_add]
    · rw [listRemove, if_neg hr, pcount, pcount, ih]

theorem mem_listRemove_ne {q p : Pos} {l : List Pos} (h : q ≠ p) :
    q ∈ listRemove p l ↔ q ∈ l := by
  induction l with
  | nil => simp [listRemove]
  | cons r t ih =>
    by_cases hr : r = p
    · rw [listRemove, if_pos hr, List.mem_cons]
      constructor
      · exact fun hm => Or.inr hm
      · rintro (he | hm)
        · exact absurd (hr ▸ he) h
        · exact hm
    · rw [listRemove, if_neg hr, List.mem_cons, List.mem_cons, ih]

theorem pcount_append (p : Pos) (l l₂ : List Pos) :
    pcount p (l ++ l₂) = pcount p l + pcount p l₂ := by
  induction l with
  | nil => simp [pcount]
  | cons q t ih =>
    rw [List.cons_append, pcount, pcount, ih, Nat.add_assoc]

/-! ### Geometry of the face neighborhood -/

theorem pneg_mem_FACES : ∀ d ∈ FACES, pneg d ∈ FACES := by decide

theorem padd_pneg (p d : Pos) : padd (padd p d) (pneg d) = p := by
  obtain ⟨x, y, z⟩ := p
  obtain ⟨a, b, c⟩ := d
  simp [padd, pneg]

theorem self_not_mem_neighbors (p : Pos) : p ∉ neighbors p := by
  rw [neighbors, List.mem_map]
  rintro ⟨d, hd, he⟩
  have hd0 : d = ((0 : Int), (0 : Int), (0 : Int)) := by
    obtain ⟨x, y, z⟩ := p
    obtain ⟨a, b, c⟩ := d
    simp only [padd, Prod.mk.injEq] at he
    simp only [Prod.mk.injEq]
    omega
  have hno : ((0 : Int), (0 : Int), (0 : Int)) ∉ FACES := by decide
  exact hno (hd0 ▸ hd)

theorem mem_neighbors_symm {p q : Pos} : q ∈ neighbors p ↔ p ∈ neighbors q := by
  have dir : ∀ p' q' : Pos, q' ∈ neighbors p' → p' ∈ neighbors q' := by
    intro p' q' hq
    rw [neighbors, List.mem_map] at hq ⊢
    obtain ⟨d, hd, he⟩ := hq
    exact ⟨pneg d, pneg_mem_FACES d hd, by rw [← he, padd_pneg]⟩
  exact ⟨dir p q, dir q p⟩

/-! ### Congruence lemmas -/

theorem anyCongr {α : Type} {l : List α} {f g : α → Bool}
    (h : ∀ a ∈ l, f a = g a) : l.any f = l.any g := by
  induction l with
  | nil => rfl
  | cons a t ih => simp_all

theorem inWorldB_congr {m₁ m₂ : Model} (h : m₁.world = m₂.world) (p : Pos) :
    inWorldB m₁ p = inWorldB m₂ p := by
  simp [inWorldB, h]

theorem isShownB_congr {m₁ m₂ : Model} (h : m₁.shown = m₂.shown) (p : Pos) :
    isShownB m₁ p = isShownB m₂ p := by
  simp [isShownB, h]

theorem exposed_congr {m₁ m₂ : Model} (h : ∀ q, inWorldB m₁ q = inWorldB m₂ q)
    (p : Pos) : exposed m₁ p = exposed m₂ p := by
  unfold exposed
  exact anyCongr (fun d _ => by rw [h])

theorem exposed_of_world_eq {m₁ m₂ : Model} (h : m₁.world = m₂.world) (p : Pos) :
    exposed m₁ p = exposed m₂ p :=
  exposed_congr (inWorldB_congr h) p

theorem bucketOf_congr {m₁ m₂ : Model} (h : m₁.sectors = m₂.sectors) (s : Pos) :
    bucketOf m₁ s = bucketOf m₂ s := by
  simp [bucketOf, h]

theorem exposed_agree_off {m₁ m₂ : Model} {p r : Pos}
    (h : ∀ q, q ≠ p → inWorldB m₁ q = inWorldB m₂ q) (hr : r ∉ neighbors p) :
    exposed m₁ r = exposed m₂ r := by
  unfold exposed
  apply anyCongr
  intro d hd
  have hne : padd r d ≠ p := by
    intro he
    apply hr
    rw [mem_neighbors_symm]
    have hm : padd r d ∈ neighbors r := List.mem_map_of_mem (padd r) hd
    rwa [he] at hm
  rw [h _ hne]

/-! ### The invariant in pointwise form -/

theorem inv_forall {m : Model} (h : Inv m) (q : Pos) :
    isShownB m q = (inWorldB m q && exposed m q) := by
  cases hs : isShownB m q with
  | true =>
    rw [isShownB, Option.isSome_iff_exists] at hs
    obtain ⟨c, hc⟩ := hs
    obtain ⟨hw, he⟩ := h.1 (q, c) (alLookup_eq_some_mem hc)
    simp [hw, he]
  | false =>
    cases hw : inWorldB m q with
    | false => simp
    | true =>
      cases he : exposed m q with
      | false => simp
      | true =>
        rw [inWorldB, Option.isSome_iff_exists] at hw
        obtain ⟨n, hn⟩ := hw
        have := h.2 (q, n) (alLookup_eq_some_mem hn) he
        rw [this] at hs
        exact absurd hs (by simp)

theorem inv_of_forall {m : Model}
    (h : ∀ q, isShownB m q = (inWorldB m q && exposed m q)) : Inv m := by
  constructor
  · intro e he
    have hs : isShownB m e.1 = true := by
      rw [isShownB]
      exact mem_lookup_isSome he
    rw [h e.1] at hs
    exact ⟨(Bool.and_eq_true _ _).mp hs |>.1, (Bool.and_eq_true _ _).mp hs |>.2⟩
  · intro e he hexp
    have hw : inWorldB m e.1 = true := by
      rw [inWorldB]
      exact mem_lookup_isSome he
    rw [h e.1, hw, hexp]
    rfl


/-! ### Inversion lemmas for the block operations -/

theorem alPop_eq_some {κ α : Type} [DecidableEq κ] {l rest : List (κ × α)} {k : κ} {v : α}
    (h : alPop k l = some (v, rest)) : alLookup l k = some v ∧ rest = alErase k l := by
  unfold alPop at h
  split at h
  · exact absurd h (by simp)
  next v' hv =>
    rw [Option.some.injEq, Prod.mk.injEq] at h
    obtain ⟨h1, h2⟩ := h
    exact ⟨h1 ▸ hv, h2.symm⟩

theorem show_block_some {m m' : Model} {p : Pos} {imm : Bool}
    (h : show_block m p imm = some m') :
    ∃ name coords, alLookup m.world p = some name ∧ alLookup BLOCKS name = some coords ∧
      m'.world = m.world ∧ m'.sectors = m.sectors ∧
      m'.shown = alInsert p coords m.shown ∧
      (imm = true → m'.handles = alInsert p m.nextId m.handles ∧ m'.queue = m.queue) ∧
      (imm = false → m'.handles = m.handles ∧
        m'.queue = m.queue ++ [QOp.showOp p coords]) := by
  unfold show_block at h
  split at h
  · exact absurd h (by simp)
  next name hw =>
    split at h
    · exact absurd h (by simp)
    next coords hb =>
      refine ⟨name, coords, hw, hb, ?_⟩
      cases imm with
      | true =>
        rw [if_pos rfl, Option.some.injEq] at h
        subst h
        refine ⟨rfl, rfl, rfl, fun _ => ⟨rfl, rfl⟩, fun hf => absurd hf (by decide)⟩
      | false =>
        rw [if_neg (by decide), Option.some.injEq] at h
        subst h
        refine ⟨rfl, rfl, rfl, fun ht => absurd ht (by decide), fun _ => ⟨rfl, rfl⟩⟩

theorem hide_block_some {m m' : Model} {p : Pos} {imm : Bool}
    (h : hide_block m p imm = some m') :
    isShownB m p = true ∧ m'.world = m.world ∧ m'.sectors = m.sectors ∧
    m'.shown = alErase p m.shown ∧
    (imm = true → m'.handles = alErase p m.handles ∧ m'.queue = m.queue) ∧
    (imm = false → m'.handles = m.handles ∧
      m'.queue = m.queue ++ [QOp.hideOp p]) := by
  unfold hide_block at h
  split at h
  · exact absurd h (by simp)
  next pr hpop =>
    obtain ⟨c, rest⟩ := pr
    obtain ⟨hlook, hrest⟩ := alPop_eq_some hpop
    subst hrest
    have hs : isShownB m p = true := by simp [isShownB, hlook]
    cases imm with
    | false =>
      rw [if_neg (by decide), Option.some.injEq] at h
      subst h
      exact ⟨hs, rfl, rfl, rfl, fun ht => absurd ht (by decide), fun _ => ⟨rfl, rfl⟩⟩
    | true =>
      rw [if_pos rfl] at h
      unfold _hide_block at h
      split at h
      · exact absurd h (by simp)
      next pr2 hpop2 =>
        obtain ⟨vid, rest2⟩ := pr2
        obtain ⟨hl2, hr2⟩ := alPop_eq_some hpop2
        subst hr2
        rw [Option.some.injEq] at h
        subst h
        exact ⟨hs, rfl, rfl, rfl, fun _ => ⟨rfl, rfl⟩, fun hf => absurd hf (by decide)⟩

theorem bool_eq_true_of_ne_false {b : Bool} (h : ¬b = false) : b = true := by
  cases b
  · exact absurd rfl h
  · rfl

theorem bool_eq_false_of_ne_true {b : Bool} (h : ¬b = true) : b = false := by
  cases b
  · rfl
  · exact absurd rfl h

theorem cn_step_frame {m m' : Model} {k : Pos}
    (h : check_neighbors_step m k = some m') :
    m'.world = m.world ∧ m'.sectors = m.sectors := by
  unfold check_neighbors_step at h
  split at h
  · rw [Option.some.injEq] at h
    subst h
    exact ⟨rfl, rfl⟩
  · split at h
    · split at h
      · rw [Option.some.injEq] at h
        subst h
        exact ⟨rfl, rfl⟩
      · obtain ⟨n, c, _, _, hw, hs, _⟩ := show_block_some h
        exact ⟨hw, hs⟩
    · split at h
      · obtain ⟨_, hw, hs, _⟩ := hide_block_some h
        exact ⟨hw, hs⟩
      · rw [Option.some.injEq] at h
        subst h
        exact ⟨rfl, rfl⟩

theorem cn_step_some {m m' : Model} {k : Pos}
    (hnd : (keys m.shown).Nodup) (h : check_neighbors_step m k = some m') :
    m'.world = m.world ∧ m'.sectors = m.sectors ∧ (keys m'.shown).Nodup ∧
    ∀ r, isShownB m' r =
      (if r = k then (if inWorldB m k = true then exposed m k else isShownB m k)
       else isShownB m r) := by
  unfold check_neighbors_step at h
  split at h
  case isTrue hw =>
    rw [Option.some.injEq] at h
    subst h
    refine ⟨rfl, rfl, hnd, fun r => ?_⟩
    by_cases hr : r = k
    · subst hr
      rw [if_pos rfl, if_neg (by simp [hw])]
    · rw [if_neg hr]
  case isFalse hw =>
    have hwt : inWorldB m k = true := bool_eq_true_of_ne_false hw
    split at h
    case isTrue hexp =>
      split at h
      case isTrue hsh =>
        rw [Option.some.injEq] at h
        subst h
        refine ⟨rfl, rfl, hnd, fun r => ?_⟩
        by_cases hr : r = k
        · subst hr
          rw [if_pos rfl, if_pos hwt, hsh, hexp]
        · rw [if_neg hr]
      case isFalse hsh =>
        obtain ⟨name, coords, hw', hb', hwld, hsec, hshw, _, _⟩ := show_block_some h
        refine ⟨hwld, hsec, by rw [hshw]; exact keys_insert_nodup hnd, fun r => ?_⟩
        by_cases hr : r = k
        · subst hr
          rw [if_pos rfl, if_pos hwt, isShownB, hshw, alLookup_insert_self, hexp]
          rfl
        · rw [if_neg hr, isShownB, hshw, alLookup_insert_ne _ _ hr]
          rfl
    case isFalse hexp =>
      have hexpf : exposed m k = false := bool_eq_false_of_ne_true hexp
      split at h
      case isTrue hsh =>
        obtain ⟨hs, hwld, hsec, hshw, _, _⟩ := hide_block_some h
        refine ⟨hwld, hsec, by rw [hshw]; exact keys_erase_nodup hnd, fun r => ?_⟩
        by_cases hr : r = k
        · subst hr
          rw [if_pos rfl, if_pos hwt, isShownB, hshw, alLookup_erase_self hnd, hexpf]
          rfl
        · rw [if_neg hr, isShownB, hshw, alLookup_erase_ne _ hr]
          rfl
      case isFalse hsh =>
        rw [Option.some.injEq] at h
        subst h
        refine ⟨rfl, rfl, hnd, fun r => ?_⟩
        by_cases hr : r = k
        · subst hr
          rw [if_pos rfl, if_pos hwt, hexpf, bool_eq_false_of_ne_true hsh]
        · rw [if_neg hr]

theorem cn_fold_frame {ks : List Pos} {m m' : Model}
    (h : ks.foldlM check_neighbors_step m = some m') :
    m'.world = m.world ∧ m'.sectors = m.sectors := by
  induction ks generalizing m with
  | nil =>
    rw [List.foldlM_nil] at h
    cases h
    exact ⟨rfl, rfl⟩
  | cons a ks ih =>
    rw [List.foldlM_cons] at h
    cases hstep : check_neighbors_step m a with
    | none =>
      rw [hstep] at h
      exact absurd h (by simp)
    | some m₁ =>
      rw [hstep] at h
      simp only [Option.pure_def, Option.bind_eq_bind, Option.some_bind] at h
      obtain ⟨hw1, hs1⟩ := cn_step_frame hstep
      obtain ⟨hw2, hs2⟩ := ih h
      exact ⟨hw2.trans hw1, hs2.trans hs1⟩

theorem cn_fold_some {ks : List Pos} {m m' : Model}
    (hnd : (keys m.shown).Nodup) (h : ks.foldlM check_neighbors_step m = some m') :
    m'.world = m.world ∧ m'.sectors = m.sectors ∧ (keys m'.shown).Nodup ∧
    ∀ r, isShownB m' r =
      (if r ∈ ks ∧ inWorldB m r = true then exposed m r else isShownB m r) := by
  induction ks generalizing m with
  | nil =>
    rw [List.foldlM_nil] at h
    cases h
    refine ⟨rfl, rfl, hnd, fun r => ?_⟩
    rw [if_neg (by simp)]
  | cons a ks ih =>
    rw [List.foldlM_cons] at h
    cases hstep : check_neighbors_step m a with
    | none =>
      rw [hstep] at h
      exact absurd h (by simp)
    | some m₁ =>
      rw [hstep] at h
      simp only [Option.pure_def, Option.bind_eq_bind, Option.some_bind] at h
      obtain ⟨hw1, hs1, hnd1, hch1⟩ := cn_step_some hnd hstep
      obtain ⟨hw2, hs2, hnd2, hch2⟩ := ih hnd1 h
      refine ⟨hw2.trans hw1, hs2.trans hs1, hnd2, fun r => ?_⟩
      rw [hch2 r, inWorldB_congr hw1 r, exposed_of_world_eq hw1 r, hch1 r]
      by_cases hra : r = a
      · subst hra
        by_cases hks : r ∈ ks <;> by_cases hin : inWorldB m r = true <;>
          simp [hks, hin, List.mem_cons]
      · by_cases hks : r ∈ ks <;> by_cases hin : inWorldB m r = true <;>
          simp [hra, hks, hin, List.mem_cons]


/-! ### Assembly lemmas for remove and add -/

theorem remove_block_true_shown {m m' : Model} {p : Pos}
    (hWF : WF m) (h : remove_block m p true = some m') :
    WF m' ∧ m'.world = alErase p m.world ∧
    (∃ bucket, alLookup m.sectors (sectorize p) = some bucket ∧ p ∈ bucket ∧
      m'.sectors = alInsert (sectorize p) (listRemove p bucket) m.sectors) ∧
    inWorldB m p = true ∧
    ∀ r, isShownB m' r =
      (if r ∈ neighbors p ∧ inWorldB m' r = true then exposed m' r
       else if r = p then false else isShownB m r) := by
  obtain ⟨hndw, hnds⟩ := hWF
  cases hw : alLookup m.world p with
  | none =>
    simp [remove_block, hw] at h
  | some name =>
    simp only [remove_block, hw] at h
    cases hb : alLookup m.sectors (sectorize p) with
    | none =>
      simp only [hb] at h
      exact Option.noConfusion h
    | some bucket =>
      simp only [hb] at h
      by_cases hmem : p ∈ bucket
      · rw [if_pos hmem, if_pos trivial, Option.bind_eq_some] at h
        obtain ⟨m₃, hm3, hcn⟩ := h
        have hwp : inWorldB m p = true := by simp [inWorldB, hw]
        have hfacts : m₃.world = alErase p m.world ∧
            m₃.sectors = alInsert (sectorize p) (listRemove p bucket) m.sectors ∧
            (keys m₃.shown).Nodup ∧
            ∀ r, isShownB m₃ r = if r = p then false else isShownB m r := by
          split at hm3
          case isTrue hsh =>
            obtain ⟨hs3, hw3, hsec3, hshw3, _, _⟩ := hide_block_some hm3
            have hshw3' : m₃.shown = alErase p m.shown := hshw3
            refine ⟨hw3, hsec3, by rw [hshw3']; exact keys_erase_nodup hnds,
              fun r => ?_⟩
            by_cases hr : r = p
            · subst hr
              rw [if_pos rfl, isShownB, hshw3']
              simp [alLookup_erase_self hnds]
            · rw [if_neg hr, isShownB, hshw3', alLookup_erase_ne _ hr]
              rfl
          case isFalse hsh =>
            rw [Option.some.injEq] at hm3
            refine ⟨by rw [← hm3], by rw [← hm3], by rw [← hm3]; exact hnds,
              fun r => ?_⟩
            by_cases hr : r = p
            · subst hr
              rw [if_pos rfl, ← hm3]
              exact bool_eq_false_of_ne_true hsh
            · rw [if_neg hr, ← hm3]
              rfl
        obtain ⟨hw3, hsec3, hnd3, hsh3⟩ := hfacts
        unfold check_neighbors at hcn
        obtain ⟨hw', hsec', hnd', hch⟩ := cn_fold_some hnd3 hcn
        have hworld : m'.world = alErase p m.world := hw'.trans hw3
        have hsect : m'.sectors =
            alInsert (sectorize p) (listRemove p bucket) m.sectors :=
          hsec'.trans hsec3
        refine ⟨⟨by rw [hworld]; exact keys_erase_nodup hndw, hnd'⟩,
          hworld, ⟨bucket, rfl, hmem, hsect⟩, hwp, fun r => ?_⟩
        have hiw : ∀ q, inWorldB m₃ q = inWorldB m' q :=
          fun q => (inWorldB_congr hw' q).symm
        have hex : ∀ q, exposed m₃ q = exposed m' q :=
          fun q => (exposed_of_world_eq hw' q).symm
        rw [hch r, hiw r, hex r, hsh3 r]
      · rw [if_neg hmem] at h
        exact Option.noConfusion h


theorem remove_block_true_inv {m m' : Model} {p : Pos}
    (hWF : WF m) (hInv : ∀ q, isShownB m q = (inWorldB m q && exposed m q))
    (h : remove_block m p true = some m') :
    WF m' ∧ (∀ q, isShownB m' q = (inWorldB m' q && exposed m' q)) ∧
    m'.world = alErase p m.world ∧
    (∃ bucket, alLookup m.sectors (sectorize p) = some bucket ∧ p ∈ bucket ∧
      m'.sectors = alInsert (sectorize p) (listRemove p bucket) m.sectors) ∧
    inWorldB m p = true := by
  obtain ⟨hWF', hworld, hsect, hwp, hch⟩ := remove_block_true_shown hWF h
  refine ⟨hWF', fun q => ?_, hworld, hsect, hwp⟩
  have hoff : ∀ r, r ≠ p → inWorldB m' r = inWorldB m r := by
    intro r hr
    rw [inWorldB, inWorldB, hworld, alLookup_erase_ne _ hr]
  have hp' : inWorldB m' p = false := by
    rw [inWorldB, hworld, alLookup_erase_self hWF.1]
    rfl
  rw [hch q]
  by_cases hn : q ∈ neighbors p
  · have hq : q ≠ p := fun he => self_not_mem_neighbors p (he ▸ hn)
    cases hin : inWorldB m' q with
    | true =>
      rw [if_pos ⟨hn, rfl⟩]
      simp
    | false =>
      rw [if_neg (fun hc => Bool.noConfusion hc.2), if_neg hq, hInv q,
        (hoff q hq).symm.trans hin]
      simp
  · by_cases hq : q = p
    · subst hq
      rw [if_neg (fun hc => hn hc.1), if_pos rfl, hp']
      simp
    · rw [if_neg (fun hc => hn hc.1), if_neg hq, hInv q, ← hoff q hq,
        ← exposed_agree_off hoff hn]

theorem add_core_true_inv {m m' : Model} {p : Pos} {name : String}
    (hWF : WF m) (hp : inWorldB m p = false)
    (hInv : ∀ q, isShownB m q = (inWorldB m q && exposed m q))
    (h : add_block_core m p name true = some m') :
    WF m' ∧ (∀ q, isShownB m' q = (inWorldB m' q && exposed m' q)) ∧
    m'.world = alInsert p name m.world ∧
    m'.sectors = alInsert (sectorize p) (bucketOf m (sectorize p) ++ [p]) m.sectors := by
  obtain ⟨hndw, hnds⟩ := hWF
  simp only [add_block_core] at h
  rw [if_pos (by trivial), Option.bind_eq_some] at h
  obtain ⟨m₃, hm3, hcn⟩ := h
  have hfacts : m₃.world = alInsert p name m.world ∧
      m₃.sectors = alInsert (sectorize p) (bucketOf m (sectorize p) ++ [p]) m.sectors ∧
      (keys m₃.shown).Nodup ∧
      ∀ r, isShownB m₃ r = if r = p then exposed m₃ p else isShownB m r := by
    split at hm3
    case isTrue hexp =>
      obtain ⟨name', coords, hww, hbb, hw3, hsec3, hshw3, _, _⟩ := show_block_some hm3
      have hshw3' : m₃.shown = alInsert p coords m.shown := hshw3
      have hexp3 : exposed m₃ p = true := by
        rw [exposed_of_world_eq hw3 p]
        exact hexp
      refine ⟨hw3, hsec3, by rw [hshw3']; exact keys_insert_nodup hnds, fun r => ?_⟩
      by_cases hr : r = p
      · subst hr
        rw [if_pos rfl, isShownB, hshw3', alLookup_insert_self, hexp3]
        rfl
      · rw [if_neg hr, isShownB, hshw3', alLookup_insert_ne _ _ hr]
        rfl
    case isFalse hexp =>
      rw [Option.some.injEq] at hm3
      have hl : isShownB m₃ p = false := by
        rw [← hm3]
        show isShownB m p = false
        rw [hInv p, hp]
        rfl
      have hr3 : exposed m₃ p = false := by
        rw [← hm3]
        exact bool_eq_false_of_ne_true hexp
      refine ⟨by rw [← hm3], by rw [← hm3]; rfl, by rw [← hm3]; exact hnds,
        fun r => ?_⟩
      by_cases hr : r = p
      · subst hr
        rw [if_pos rfl, hl, hr3]
      · rw [if_neg hr, ← hm3]
        rfl
  obtain ⟨hw3, hsec3, hnd3, hsh3⟩ := hfacts
  unfold check_neighbors at hcn
  obtain ⟨hw', hsec', hnd', hch⟩ := cn_fold_some hnd3 hcn
  have hworld : m'.world = alInsert p name m.world := hw'.trans hw3
  have hsect : m'.sectors =
      alInsert (sectorize p) (bucketOf m (sectorize p) ++ [p]) m.sectors :=
    hsec'.trans hsec3
  have hiw : ∀ r, inWorldB m₃ r = inWorldB m' r :=
    fun r => (inWorldB_congr hw' r).symm
  have hex : ∀ r, exposed m₃ r = exposed m' r :=
    fun r => (exposed_of_world_eq hw' r).symm
  have hoff : ∀ r, r ≠ p → inWorldB m' r = inWorldB m r := by
    intro r hr
    rw [inWorldB, inWorldB, hworld, alLookup_insert_ne _ _ hr]
  have hpw : inWorldB m' p = true := by
    rw [inWorldB, hworld, alLookup_insert_self]
    rfl
  refine ⟨⟨by rw [hworld]; exact keys_insert_nodup hndw, hnd'⟩, fun q => ?_,
    hworld, hsect⟩
  rw [hch q, hiw q, hex q]
  by_cases hn : q ∈ neighbors p
  · have hq : q ≠ p := fun he => self_not_mem_neighbors p (he ▸ hn)
    cases hin : inWorldB m' q with
    | true =>
      rw [if_pos ⟨hn, rfl⟩]
      simp
    | false =>
      rw [if_neg (fun hc => Bool.noConfusion hc.2), hsh3 q, if_neg hq, hInv q,
        (hoff q hq).symm.trans hin]
      simp
  · by_cases hq : q = p
    · subst hq
      rw [if_neg (fun hc => hn hc.1), hsh3 q, if_pos rfl, hex q, hpw]
      simp
    · rw [if_neg (fun hc => hn hc.1), hsh3 q, if_neg hq, hInv q, ← hoff q hq,
        ← exposed_agree_off hoff hn]

theorem add_block_true_inv {m m' : Model} {p : Pos} {name : String}
    (hWF : WF m) (hInv : ∀ q, isShownB m q = (inWorldB m q && exposed m q))
    (h : add_block m p name true = some m') :
    WF m' ∧ (∀ q, isShownB m' q = (inWorldB m' q && exposed m' q)) := by
  unfold add_block at h
  by_cases hp : inWorldB m p = true
  · rw [if_pos hp, Option.bind_eq_some] at h
    obtain ⟨m₁, hrem, hcore⟩ := h
    obtain ⟨hWF₁, hInv₁, hworld₁, _, _⟩ := remove_block_true_inv hWF hInv hrem
    have hp₁ : inWorldB m₁ p = false := by
      rw [inWorldB, hworld₁, alLookup_erase_self hWF.1]
      rfl
    obtain ⟨hWF₂, hInv₂, _, _⟩ := add_core_true_inv hWF₁ hp₁ hInv₁ hcore
    exact ⟨hWF₂, hInv₂⟩
  · rw [if_neg hp, Option.some_bind'] at h
    obtain ⟨hWF₂, hInv₂, _, _⟩ :=
      add_core_true_inv hWF (bool_eq_false_of_ne_true hp) hInv h
    exact ⟨hWF₂, hInv₂⟩


/-! ### Frame lemmas for arbitrary immediate flag -/

theorem remove_block_frame {m m' : Model} {p : Pos} {imm : Bool}
    (h : remove_block m p imm = some m') :
    inWorldB m p = true ∧ m'.world = alErase p m.world ∧
    (∃ bucket, alLookup m.sectors (sectorize p) = some bucket ∧ p ∈ bucket ∧
      m'.sectors = alInsert (sectorize p) (listRemove p bucket) m.sectors) ∧
    (imm = false → m'.shown = m.shown ∧ m'.handles = m.handles ∧
      m'.queue = m.queue) := by
  cases hw : alLookup m.world p with
  | none => simp [remove_block, hw] at h
  | some name =>
    have hwp : inWorldB m p = true := by simp [inWorldB, hw]
    simp only [remove_block, hw] at h
    cases hb : alLookup m.sectors (sectorize p) with
    | none =>
      simp only [hb] at h
      exact Option.noConfusion h
    | some bucket =>
      simp only [hb] at h
      by_cases hmem : p ∈ bucket
      · rw [if_pos hmem] at h
        split at h
        next himm =>
          rw [Option.bind_eq_some] at h
          obtain ⟨m₃, hm3, hcn⟩ := h
          have hfacts : m₃.world = alErase p m.world ∧
              m₃.sectors = alInsert (sectorize p) (listRemove p bucket) m.sectors := by
            split at hm3
            next hsh =>
              obtain ⟨_, hw3, hsec3, _, _, _⟩ := hide_block_some hm3
              exact ⟨hw3, hsec3⟩
            next hsh =>
              rw [Option.some.injEq] at hm3
              exact ⟨by rw [← hm3]; try rfl, by rw [← hm3]; try rfl⟩
          obtain ⟨hw3, hsec3⟩ := hfacts
          unfold check_neighbors at hcn
          obtain ⟨hw', hsec'⟩ := cn_fold_frame hcn
          exact ⟨hwp, hw'.trans hw3, ⟨bucket, rfl, hmem, hsec'.trans hsec3⟩,
            fun hf => absurd (himm ▸ hf) (by decide)⟩
        next himm =>
          rw [Option.some.injEq] at h
          exact ⟨hwp, by rw [← h]; try rfl, ⟨bucket, rfl, hmem, by rw [← h]; try rfl⟩,
            fun _ => ⟨by rw [← h]; try rfl, by rw [← h]; try rfl, by rw [← h]; try rfl⟩⟩
      · rw [if_neg hmem] at h
        exact Option.noConfusion h

theorem add_core_frame {m m' : Model} {p : Pos} {name : String} {imm : Bool}
    (h : add_block_core m p name imm = some m') :
    m'.world = alInsert p name m.world ∧
    m'.sectors = alInsert (sectorize p) (bucketOf m (sectorize p) ++ [p]) m.sectors ∧
    (imm = false → m'.shown = m.shown ∧ m'.handles = m.handles ∧
      m'.queue = m.queue) := by
  simp only [add_block_core] at h
  split at h
  next himm =>
    rw [Option.bind_eq_some] at h
    obtain ⟨m₃, hm3, hcn⟩ := h
    have hfacts : m₃.world = alInsert p name m.world ∧
        m₃.sectors =
          alInsert (sectorize p) (bucketOf m (sectorize p) ++ [p]) m.sectors := by
      split at hm3
      next hexp =>
        obtain ⟨_, _, _, _, hw3, hsec3, _, _, _⟩ := show_block_some hm3
        exact ⟨hw3, hsec3⟩
      next hexp =>
        rw [Option.some.injEq] at hm3
        exact ⟨by rw [← hm3]; try rfl, by rw [← hm3]; try rfl⟩
    obtain ⟨hw3, hsec3⟩ := hfacts
    unfold check_neighbors at hcn
    obtain ⟨hw', hsec'⟩ := cn_fold_frame hcn
    exact ⟨hw'.trans hw3, hsec'.trans hsec3,
      fun hf => absurd (himm ▸ hf) (by decide)⟩
  next himm =>
    rw [Option.some.injEq] at h
    exact ⟨by rw [← h]; try rfl, by rw [← h]; try rfl,
      fun _ => ⟨by rw [← h]; try rfl, by rw [← h]; try rfl, by rw [← h]; try rfl⟩⟩


/-! ### Claim C1: the shown-set invariant -/

/-- C1 (counterexample): the claim is false as stated.  `hide_block` is a
public operation of the list, yet after `add_block((0,0,0),"dirt",True)`
followed by `hide_block((0,0,0))` the position is in `world` and exposed but
not in `shown`, so the claimed iff fails after a listed operation. -/
theorem C1_counterexample :
    ((add_block Model.empty (0, 0, 0) "dirt" true).bind
        (fun m => hide_block m (0, 0, 0) true)).map
      (fun m => (inWorldB m (0, 0, 0), exposed m (0, 0, 0), isShownB m (0, 0, 0)))
    = some (true, true, false) := by decide

/-- C1 (amended): from a well-formed state satisfying the invariant,
`add_block(p, k, immediate=True)` and `remove_block(p, immediate=True)`
preserve it: afterwards `shown ⊆ world` and a position is shown iff it is in
`world` and exposed.  (The deferred variants and the bare show/hide
operations do not preserve the iff, as the counterexample shows.) -/
theorem C1_shown_invariant_amended (m : Model) (p : Pos) (k : String)
    (hWF : WF m) (hInv : Inv m) :
    (∀ m', add_block m p k true = some m' →
      (∀ q, isShownB m' q = true → inWorldB m' q = true) ∧
      (∀ q, isShownB m' q = true ↔ (inWorldB m' q = true ∧ exposed m' q = true))) ∧
    (∀ m', remove_block m p true = some m' →
      (∀ q, isShownB m' q = true → inWorldB m' q = true) ∧
      (∀ q, isShownB m' q = true ↔ (inWorldB m' q = true ∧ exposed m' q = true))) := by
  have hInv' := inv_forall hInv
  constructor
  · intro m' hadd
    obtain ⟨hWF', hInv₂⟩ := add_block_true_inv hWF hInv' hadd
    constructor
    · intro q hq
      rw [hInv₂ q, Bool.and_eq_true] at hq
      exact hq.1
    · intro q
      rw [hInv₂ q, Bool.and_eq_true]
  · intro m' hrem
    obtain ⟨hWF', hInv₂, _, _, _⟩ := remove_block_true_inv hWF hInv' hrem
    constructor
    · intro q hq
      rw [hInv₂ q, Bool.and_eq_true] at hq
      exact hq.1
    · intro q
      rw [hInv₂ q, Bool.and_eq_true]

/-- C1 (witness): the amended theorem applied to the empty store and an
immediate dirt-block insertion at the origin. -/
theorem C1_witness :
    WF Model.empty ∧ Inv Model.empty ∧
    ((∀ m', add_block Model.empty (0, 0, 0) "dirt" true = some m' →
      (∀ q, isShownB m' q = true → inWorldB m' q = true) ∧
      (∀ q, isShownB m' q = true ↔ (inWorldB m' q = true ∧ exposed m' q = true))) ∧
    (∀ m', remove_block Model.empty (0, 0, 0) true = some m' →
      (∀ q, isShownB m' q = true → inWorldB m' q = true) ∧
      (∀ q, isShownB m' q = true ↔ (inWorldB m' q = true ∧ exposed m' q = true)))) :=
  ⟨by decide, by decide,
    C1_shown_invariant_amended Model.empty (0, 0, 0) "dirt" (by decide) (by decide)⟩

/-! ### Claim C2: deferred add_block -/

/-- C2 (counterexample): the claim is false as stated.
`add_block((0,0,0),"dirt",immediate=False)` from the empty store inserts the
position into `world` and its sector bucket, but the visibility queue stays
empty: no deferred show is enqueued. -/
theorem C2_counterexample :
    (add_block Model.empty (0, 0, 0) "dirt" false).map
      (fun m => (alLookup m.world (0, 0, 0),
        pcount (0, 0, 0) (bucketOf m (sectorize (0, 0, 0))), m.queue))
    = some (some "dirt", 1, []) := by decide

/-- C2 (amended): `add_block(p, k, immediate=False)` synchronously inserts
`p` into `world` (mapping it to `k`) and into its sector bucket, and leaves
the visibility queue unchanged — showing is skipped entirely, not enqueued
(it happens later via `check_neighbors` or `show_sector`). -/
theorem C2_deferred_add_amended (m : Model) (p : Pos) (k : String) :
    ∀ m' ∈ add_block m p k false,
      alLookup m'.world p = some k ∧ p ∈ bucketOf m' (sectorize p) ∧
      m'.queue = m.queue := by
  intro m' h
  rw [Option.mem_def] at h
  unfold add_block at h
  have hbucket : ∀ m₀ m₁ : Model, add_block_core m₀ p k false = some m₁ →
      m₁.queue = m₀.queue → alLookup m₁.world p = some k ∧
        p ∈ bucketOf m₁ (sectorize p) ∧ m₁.queue = m₀.queue := by
    intro m₀ m₁ hcore hq
    obtain ⟨hw, hs, _⟩ := add_core_frame hcore
    refine ⟨by rw [hw, alLookup_insert_self], ?_, hq⟩
    rw [bucketOf, hs, alLookup_insert_self]
    simp
  by_cases hp : inWorldB m p = true
  · rw [if_pos hp, Option.bind_eq_some] at h
    obtain ⟨m₁, hrem, hcore⟩ := h
    obtain ⟨_, _, _, hfr⟩ := remove_block_frame hrem
    obtain ⟨hw, hs, hfr2⟩ := add_core_frame hcore
    refine ⟨by rw [hw, alLookup_insert_self], ?_, ?_⟩
    · rw [bucketOf, hs, alLookup_insert_self]
      simp
    · rw [(hfr2 rfl).2.2, (hfr rfl).2.2]
  · rw [if_neg hp, Option.some_bind'] at h
    obtain ⟨hw, hs, hfr2⟩ := add_core_frame h
    refine ⟨by rw [hw, alLookup_insert_self], ?_, (hfr2 rfl).2.2⟩
    rw [bucketOf, hs, alLookup_insert_self]
    simp

/-- C2 (witness): the amended theorem at the empty store, evaluated at the
resulting state. -/
theorem C2_witness :
    mDef ∈ add_block Model.empty (0, 0, 0) "dirt" false ∧
    (alLookup mDef.world (0, 0, 0) = some "dirt" ∧
      (0, 0, 0) ∈ bucketOf mDef (sectorize (0, 0, 0)) ∧
      mDef.queue = Model.empty.queue) :=
  ⟨by decide,
    C2_deferred_add_amended Model.empty (0, 0, 0) "dirt" mDef (by decide)⟩

/-! ### Claim C4: the hit_test scenario -/

/-- C4: with a single block at the origin, `hit_test((0,5,0), (0,-1,0), 8)`
marches downward in 1/8-block steps and returns `((0,0,0), (0,1,0))`. -/
theorem C4_hit_test_scenario :
    (add_block Model.empty (0, 0, 0) "dirt" true).map
      (fun m => hit_test m (0, 5, 0) (0, -1, 0) 8)
    = some (some (0, 0, 0), some (0, 1, 0)) := by with_unfolding_all rfl

/-! ### Claim C6: replace semantics of add_block -/

/-- C6: `add_block((0,0,0),"dirt")` then `add_block((0,0,0),"sand")` ends
with `world[(0,0,0)] = "sand"`, exactly one sector-bucket entry for the
position, and exactly one geometry handle for it in the batch (the dirt
handle was released by the full `remove_block` replace). -/
theorem C6_replace_semantics :
    ((add_block Model.empty (0, 0, 0) "dirt" true).bind
        (fun m => add_block m (0, 0, 0) "sand" true)).map
      (fun m => (alLookup m.world (0, 0, 0),
        pcount (0, 0, 0) (bucketOf m (sectorize (0, 0, 0))),
        (m.batch.filter (fun e => e.2.1 = (0, 0, 0))).length))
    = some (some "sand", 1, 1) := by decide

/-! ### Claim C10: hit at the origin block -/

/-- C10 (counterexample): the claim is false as stated: with
`max_distance = 0` the march performs no steps and returns `(None, None)`
even though the block containing the origin is in the world. -/
theorem C10_counterexample :
    (add_block Model.empty (0, 0, 0) "dirt" true).map
      (fun m => (inWorldB m (normalize (0, 0, 0)),
        hit_test m (0, 0, 0) (1, 0, 0) 0))
    = some (true, none, none) := by with_unfolding_all rfl

/-- C10 (amended): for `max_distance ≥ 1`, if the block containing the
origin is itself present in the world, `hit_test` returns it on the very
first step with `previous = None`: a hit does not guarantee an adjacent
placement position. -/
theorem C10_first_step_hit_amended (m : Model) (position vector : Vec3)
    (d : Nat) (hd : 1 ≤ d) (hw : inWorldB m (normalize position) = true) :
    hit_test m position vector d = (some (normalize position), none) := by
  obtain ⟨x, y, z⟩ := position
  obtain ⟨dx, dy, dz⟩ := vector
  obtain ⟨n, hn⟩ : ∃ n, d * 8 = n + 1 := ⟨d * 8 - 1, by omega⟩
  rw [hit_test]
  show hit_testLoop m dx dy dz (d * 8) x y z none = (some (normalize (x, y, z)), none)
  rw [hn, hit_testLoop, if_pos ⟨Option.some_ne_none _, hw⟩]

/-- C10 (witness): the amended theorem at the one-block store, aiming from
inside the block. -/
theorem C10_witness :
    1 ≤ 8 ∧ inWorldB mOne (normalize (0, 0, 0)) = true ∧
    hit_test mOne (0, 0, 0) (1, 0, 0) 8 = (some (normalize (0, 0, 0)), none) :=
  ⟨by decide, by with_unfolding_all rfl,
    C10_first_step_hit_amended mOne (0, 0, 0) (1, 0, 0) 8 (by decide)
      (by with_unfolding_all rfl)⟩


/-! ### Claim C5: remove/add round trip -/

theorem mem_listRemove_sub {q p : Pos} {l : List Pos}
    (h : q ∈ listRemove p l) : q ∈ l := by
  induction l with
  | nil => simp [listRemove] at h
  | cons r t ih =>
    by_cases hr : r = p
    · rw [listRemove, if_pos hr] at h
      exact List.mem_cons_of_mem _ h
    · rw [listRemove, if_neg hr, List.mem_cons] at h
      rcases h with h | h
      · exact h ▸ List.mem_cons_self _ _
      · exact List.mem_cons_of_mem _ (ih h)

/-- C5 (counterexample): the claim is false as stated.  After a deferred
`add_block((0,0,0),"dirt",False)` the block is in `world` but not shown;
removing and re-adding it immediately leaves it shown, so shown membership is
not restored to what it was before the removal. -/
theorem C5_counterexample :
    (((add_block Model.empty (0, 0, 0) "dirt" false).bind
        (fun m => remove_block m (0, 0, 0) true)).bind
      (fun m₁ => add_block m₁ (0, 0, 0) "dirt" true)).map
        (fun m₂ => isShownB m₂ (0, 0, 0)) = some true
    ∧ (add_block Model.empty (0, 0, 0) "dirt" false).map
        (fun m => isShownB m (0, 0, 0)) = some false := by decide

/-- C5 (amended): in a well-formed state satisfying the shown invariant, for
every position `p` in `world` with kind `k`, `remove_block(p, True)` followed
by `add_block(p, k, True)` restores `world` membership (and values), `shown`
membership and sector-bucket membership exactly. -/
theorem C5_roundtrip_amended (m : Model) (p : Pos) (k : String)
    (hWF : WF m) (hInv : Inv m) (hk : alLookup m.world p = some k) :
    ∀ m₂ ∈ (remove_block m p true).bind (fun m₁ => add_block m₁ p k true),
      (∀ q, inWorldB m₂ q = inWorldB m q) ∧
      (∀ q, isShownB m₂ q = isShownB m q) ∧
      (∀ s q, q ∈ bucketOf m₂ s ↔ q ∈ bucketOf m s) := by
  intro m₂ hm₂
  rw [Option.mem_def, Option.bind_eq_some] at hm₂
  obtain ⟨m₁, hrem, hadd⟩ := hm₂
  have hInv' := inv_forall hInv
  obtain ⟨hWF₁, hInv₁, hworld₁, ⟨bucket, hbuck, hpmem, hsect₁⟩, hwp⟩ :=
    remove_block_true_inv hWF hInv' hrem
  have hp₁ : inWorldB m₁ p = false := by
    rw [inWorldB, hworld₁, alLookup_erase_self hWF.1]
    rfl
  rw [add_block, if_neg (by rw [hp₁]; exact fun hc => Bool.noConfusion hc),
    Option.some_bind'] at hadd
  obtain ⟨hWF₂, hInv₂, hworld₂, hsect₂⟩ := add_core_true_inv hWF₁ hp₁ hInv₁ hadd
  have hmemw : ∀ q, inWorldB m₂ q = inWorldB m q := by
    intro q
    by_cases hq : q = p
    · subst hq
      rw [inWorldB, hworld₂, alLookup_insert_self, inWorldB, hk]
    · rw [inWorldB, hworld₂, alLookup_insert_ne _ _ hq, hworld₁,
        alLookup_erase_ne _ hq]
      rfl
  refine ⟨hmemw, ?_, ?_⟩
  · intro q
    rw [hInv₂ q, hInv' q, hmemw q, exposed_congr hmemw q]
  · intro s q
    by_cases hs : s = sectorize p
    · subst hs
      have hb₁ : bucketOf m₁ (sectorize p) = listRemove p bucket := by
        rw [bucketOf, hsect₁, alLookup_insert_self, Option.getD_some]
      have hb₂ : bucketOf m₂ (sectorize p) = listRemove p bucket ++ [p] := by
        rw [bucketOf, hsect₂, alLookup_insert_self, Option.getD_some, hb₁]
      rw [hb₂, bucketOf, hbuck, Option.getD_some]
      constructor
      · intro hq
        rcases List.mem_append.mp hq with hq | hq
        · exact mem_listRemove_sub hq
        · rw [List.mem_singleton] at hq
          exact hq ▸ hpmem
      · intro hq
        by_cases hqp : q = p
        · exact List.mem_append.mpr (Or.inr (by rw [hqp]; exact List.mem_singleton_self p))
        · exact List.mem_append.mpr (Or.inl ((mem_listRemove_ne hqp).mpr hq))
    · rw [bucketOf, hsect₂, alLookup_insert_ne _ _ hs, hsect₁,
        alLookup_insert_ne _ _ hs, bucketOf]

/-- C5 (witness): the amended round trip at the one-block store. -/
theorem C5_witness :
    WF mOne ∧ Inv mOne ∧ alLookup mOne.world (0, 0, 0) = some "dirt" ∧
    (∀ m₂ ∈ (remove_block mOne (0, 0, 0) true).bind
        (fun m₁ => add_block m₁ (0, 0, 0) "dirt" true),
      (∀ q, inWorldB m₂ q = inWorldB mOne q) ∧
      (∀ q, isShownB m₂ q = isShownB mOne q) ∧
      (∀ s q, q ∈ bucketOf m₂ s ↔ q ∈ bucketOf mOne s)) :=
  ⟨by decide, by decide, by decide,
    C5_roundtrip_amended mOne (0, 0, 0) "dirt" (by decide) (by decide) (by decide)⟩


/-! ### Claim C3: the sector invariant -/

theorem remove_scount {m m' : Model} {p : Pos} {imm : Bool}
    (hnd : (keys m.world).Nodup) (hS : SCount m)
    (h : remove_block m p imm = some m') :
    (keys m'.world).Nodup ∧ SCount m' ∧ inWorldB m' p = false := by
  obtain ⟨hwp, hworld, ⟨bucket, hbuck, hpmem, hsect⟩, _⟩ := remove_block_frame h
  have hin : ∀ q, inWorldB m' q = if q = p then false else inWorldB m q := by
    intro q
    by_cases hq : q = p
    · subst hq
      rw [if_pos rfl, inWorldB, hworld, alLookup_erase_self hnd]
      rfl
    · rw [if_neg hq, inWorldB, hworld, alLookup_erase_ne _ hq]
      rfl
  have hbkt : ∀ s, bucketOf m' s =
      if s = sectorize p then listRemove p bucket else bucketOf m s := by
    intro s
    by_cases hs : s = sectorize p
    · subst hs
      rw [if_pos rfl, bucketOf, hsect, alLookup_insert_self, Option.getD_some]
    · rw [if_neg hs, bucketOf, hsect, alLookup_insert_ne _ _ hs, bucketOf]
  have hbm : bucketOf m (sectorize p) = bucket := by
    rw [bucketOf, hbuck, Option.getD_some]
  refine ⟨by rw [hworld]; exact keys_erase_nodup hnd, fun q s => ?_,
    by rw [hin p, if_pos rfl]⟩
  rw [hbkt s, hin q]
  by_cases hq : q = p
  · subst hq
    rw [if_pos rfl]
    by_cases hs : s = sectorize q
    · rw [if_pos hs, if_neg (fun hc => Bool.noConfusion hc.1),
        pcount_listRemove_self]
      have h1 : pcount q bucket = 1 := by
        have h2 := hS q (sectorize q)
        rw [hbm, if_pos ⟨hwp, rfl⟩] at h2
        exact h2
      rw [h1]
    · rw [if_neg hs, if_neg (fun hc => Bool.noConfusion hc.1)]
      have h2 := hS q s
      rw [if_neg (fun hc => hs hc.2)] at h2
      exact h2
  · rw [if_neg hq]
    by_cases hs : s = sectorize p
    · rw [if_pos hs, pcount_listRemove_ne _ hq, hs]
      have h2 := hS q (sectorize p)
      rw [hbm] at h2
      rw [← hs]
      exact hs ▸ h2
    · rw [if_neg hs]
      exact hS q s

theorem add_core_scount {m m' : Model} {p : Pos} {k : String} {imm : Bool}
    (hnd : (keys m.world).Nodup) (hS : SCount m) (hp : inWorldB m p = false)
    (h : add_block_core m p k imm = some m') :
    (keys m'.world).Nodup ∧ SCount m' := by
  obtain ⟨hworld, hsect, _⟩ := add_core_frame h
  have hin : ∀ q, inWorldB m' q = if q = p then true else inWorldB m q := by
    intro q
    by_cases hq : q = p
    · subst hq
      rw [if_pos rfl, inWorldB, hworld, alLookup_insert_self]
      rfl
    · rw [if_neg hq, inWorldB, hworld, alLookup_insert_ne _ _ hq]
      rfl
  have hbkt : ∀ s, bucketOf m' s =
      if s = sectorize p then bucketOf m (sectorize p) ++ [p]
      else bucketOf m s := by
    intro s
    by_cases hs : s = sectorize p
    · subst hs
      rw [if_pos rfl, bucketOf, hsect, alLookup_insert_self, Option.getD_some]
    · rw [if_neg hs, bucketOf, hsect, alLookup_insert_ne _ _ hs, bucketOf]
  refine ⟨by rw [hworld]; exact keys_insert_nodup hnd, fun q s => ?_⟩
  rw [hbkt s, hin q]
  by_cases hq : q = p
  · subst hq
    rw [if_pos rfl]
    by_cases hs : s = sectorize q
    · rw [if_pos hs, if_pos ⟨rfl, hs⟩, pcount_append]
      have h0 : pcount q (bucketOf m (sectorize q)) = 0 := by
        have h2 := hS q (sectorize q)
        rw [if_neg (fun hc => Bool.noConfusion (hp ▸ hc.1))] at h2
        exact h2
      rw [h0]
      simp [pcount]
    · rw [if_neg hs, if_neg (fun hc => hs hc.2)]
      have h2 := hS q s
      rw [if_neg (fun hc => Bool.noConfusion (hp ▸ hc.1))] at h2
      exact h2
  · rw [if_neg hq]
    by_cases hs : s = sectorize p
    · rw [hs, if_pos rfl, pcount_append]
      have hz : pcount q [p] = 0 := by
        rw [pcount, pcount, if_neg (fun he : p = q => hq he.symm)]
      rw [hz, Nat.add_zero]
      exact hS q (sectorize p)
    · rw [if_neg hs]
      exact hS q s

theorem applyOp_scount {m m' : Model} {op : WorldOp}
    (hnd : (keys m.world).Nodup) (hS : SCount m) (h : applyOp m op = some m') :
    (keys m'.world).Nodup ∧ SCount m' := by
  cases op with
  | remove p imm =>
    obtain ⟨h1, h2, _⟩ := remove_scount hnd hS h
    exact ⟨h1, h2⟩
  | add p k imm =>
    rw [applyOp, add_block] at h
    by_cases hp : inWorldB m p = true
    · rw [if_pos hp, Option.bind_eq_some] at h
      obtain ⟨m₁, hrem, hcore⟩ := h
      obtain ⟨hnd₁, hS₁, hp₁⟩ := remove_scount hnd hS hrem
      exact add_core_scount hnd₁ hS₁ hp₁ hcore
    · rw [if_neg hp, Option.some_bind'] at h
      exact add_core_scount hnd hS (bool_eq_false_of_ne_true hp) h

theorem applySeq_scount {ops : List WorldOp} {m m' : Model}
    (hnd : (keys m.world).Nodup) (hS : SCount m) (h : applySeq ops m = some m') :
    (keys m'.world).Nodup ∧ SCount m' := by
  induction ops generalizing m with
  | nil =>
    rw [applySeq, List.foldlM_nil] at h
    cases h
    exact ⟨hnd, hS⟩
  | cons op ops ih =>
    rw [applySeq, List.foldlM_cons] at h
    cases hstep : applyOp m op with
    | none =>
      rw [hstep] at h
      simp at h
    | some m₁ =>
      rw [hstep] at h
      simp only [Option.pure_def, Option.bind_eq_bind, Option.some_bind] at h
      obtain ⟨hnd₁, hS₁⟩ := applyOp_scount hnd hS hstep
      exact ih hnd₁ hS₁ h

theorem scount_empty : SCount Model.empty := by
  intro p s
  simp [Model.empty, bucketOf, alLookup, pcount, inWorldB]

/-- C3: after any sequence of `add_block` / `remove_block` calls from the
empty store (any immediate flags), every position in `world` occurs exactly
once in the bucket keyed by `sectorize(p) = (x // CHUNK_SIZE, 0,
z // CHUNK_SIZE)`, and in no other bucket. -/
theorem C3_sector_invariant (ops : List WorldOp) :
    ∀ m ∈ applySeq ops Model.empty, ∀ p, inWorldB m p = true →
      pcount p (bucketOf m (sectorize p)) = 1 ∧
      ∀ s, s ≠ sectorize p → pcount p (bucketOf m s) = 0 := by
  intro m hm p hp
  rw [Option.mem_def] at hm
  obtain ⟨hnd, hS⟩ := applySeq_scount (by simp [Model.empty, keys])
    scount_empty hm
  constructor
  · have h2 := hS p (sectorize p)
    rw [if_pos ⟨hp, rfl⟩] at h2
    exact h2
  · intro s hs
    have h2 := hS p s
    rw [if_neg (fun hc => hs hc.2)] at h2
    exact h2

/-- C3 (witness): the sector invariant after a concrete mixed sequence of
adds and a remove, checked at the surviving position. -/
theorem C3_witness :
    mSeq ∈ applySeq opsW Model.empty ∧ inWorldB mSeq (16, 0, -1) = true ∧
    (pcount (16, 0, -1) (bucketOf mSeq (sectorize (16, 0, -1))) = 1 ∧
      ∀ s, s ≠ sectorize (16, 0, -1) → pcount (16, 0, -1) (bucketOf mSeq s) = 0) :=
  ⟨by decide, by decide,
    C3_sector_invariant opsW mSeq (by decide) (16, 0, -1) (by decide)⟩


/-! ### Claim C7: change_sectors idempotence -/

theorem show_fold_spec {L : List Pos} {m m' : Model}
    (h : L.foldlM (fun m' position =>
        if (!(isShownB m' position)) && exposed m' position
        then show_block m' position false else some m') m = some m') :
    m'.world = m.world ∧ m'.sectors = m.sectors ∧
    ((keys m.shown).Nodup → (keys m'.shown).Nodup) ∧
    ∀ r, isShownB m' r =
      (if r ∈ L ∧ exposed m r = true then true else isShownB m r) := by
  induction L generalizing m with
  | nil =>
    rw [List.foldlM_nil] at h
    cases h
    refine ⟨rfl, rfl, id, fun r => ?_⟩
    rw [if_neg (fun hc => List.not_mem_nil r hc.1)]
  | cons a L ih =>
    rw [List.foldlM_cons] at h
    by_cases hc : ((!(isShownB m a)) && exposed m a) = true
    · rw [if_pos hc] at h
      rw [Bool.and_eq_true, Bool.not_eq_true'] at hc
      cases hsb : show_block m a false with
      | none =>
        rw [hsb] at h
        simp at h
      | some m₁ =>
        rw [hsb] at h
        simp only [Option.pure_def, Option.bind_eq_bind, Option.some_bind] at h
        obtain ⟨name, coords, _, _, hw1, hs1, hsh1, _, _⟩ := show_block_some hsb
        obtain ⟨hw2, hs2, hnd2, hch⟩ := ih h
        have hiw : ∀ q, isShownB m₁ q = if q = a then true else isShownB m q := by
          intro q
          by_cases hq : q = a
          · subst hq
            rw [if_pos rfl, isShownB, hsh1, alLookup_insert_self]
            rfl
          · rw [if_neg hq, isShownB, hsh1, alLookup_insert_ne _ _ hq]
            rfl
        refine ⟨hw2.trans hw1, hs2.trans hs1,
          fun hnd => hnd2 (by rw [hsh1]; exact keys_insert_nodup hnd), fun r => ?_⟩
        rw [hch r, exposed_of_world_eq hw1 r, hiw r]
        by_cases hra : r = a
        · subst hra
          rw [if_pos rfl]
          by_cases hl : r ∈ L ∧ exposed m r = true
          · rw [if_pos hl, if_pos ⟨List.mem_cons_self r L, hl.2⟩]
          · rw [if_neg hl, if_pos ⟨List.mem_cons_self r L, hc.2⟩]
        · rw [if_neg hra]
          by_cases hl : r ∈ L ∧ exposed m r = true
          · rw [if_pos hl, if_pos ⟨List.mem_cons_of_mem a hl.1, hl.2⟩]
          · rw [if_neg hl, if_neg (fun hc2 => hl ⟨(List.mem_cons.mp hc2.1).resolve_left hra, hc2.2⟩)]
    · rw [if_neg hc] at h
      simp only [Option.pure_def, Option.bind_eq_bind, Option.some_bind] at h
      obtain ⟨hw2, hs2, hnd2, hch⟩ := ih h
      refine ⟨hw2, hs2, hnd2, fun r => ?_⟩
      rw [hch r]
      by_cases hra : r = a
      · subst hra
        by_cases hl : r ∈ L ∧ exposed m r = true
        · rw [if_pos hl, if_pos ⟨List.mem_cons_self r L, hl.2⟩]
        · rw [if_neg hl]
          by_cases hexp : exposed m r = true
          · have hshw : isShownB m r = true := by
              cases hsh : isShownB m r with
              | true => rfl
              | false =>
                exact absurd (by rw [hsh, hexp]; rfl) hc
            rw [hshw, if_pos ⟨List.mem_cons_self r L, hexp⟩]
          · rw [if_neg (fun hc2 => hexp hc2.2)]
      · by_cases hl : r ∈ L ∧ exposed m r = true
        · rw [if_pos hl, if_pos ⟨List.mem_cons_of_mem a hl.1, hl.2⟩]
        · rw [if_neg hl, if_neg (fun hc2 => hl ⟨(List.mem_cons.mp hc2.1).resolve_left hra, hc2.2⟩)]

theorem hide_fold_spec {L : List Pos} {m m' : Model}
    (hnd : (keys m.shown).Nodup)
    (h : L.foldlM (fun m' position =>
        if isShownB m' position then hide_block m' position false
        else some m') m = some m') :
    m'.world = m.world ∧ m'.sectors = m.sectors ∧ (keys m'.shown).Nodup ∧
    ∀ r, isShownB m' r = (if r ∈ L then false else isShownB m r) := by
  induction L generalizing m with
  | nil =>
    rw [List.foldlM_nil] at h
    cases h
    refine ⟨rfl, rfl, hnd, fun r => ?_⟩
    rw [if_neg (List.not_mem_nil r)]
  | cons a L ih =>
    rw [List.foldlM_cons] at h
    by_cases hc : isShownB m a = true
    · rw [if_pos hc] at h
      cases hhb : hide_block m a false with
      | none =>
        rw [hhb] at h
        simp at h
      | some m₁ =>
        rw [hhb] at h
        simp only [Option.pure_def, Option.bind_eq_bind, Option.some_bind] at h
        obtain ⟨_, hw1, hs1, hsh1, _, _⟩ := hide_block_some hhb
        have hnd1 : (keys m₁.shown).Nodup := by
          rw [hsh1]
          exact keys_erase_nodup hnd
        obtain ⟨hw2, hs2, hnd2, hch⟩ := ih hnd1 h
        have hiw : ∀ q, isShownB m₁ q = if q = a then false else isShownB m q := by
          intro q
          by_cases hq : q = a
          · subst hq
            rw [if_pos rfl, isShownB, hsh1, alLookup_erase_self hnd]
            rfl
          · rw [if_neg hq, isShownB, hsh1, alLookup_erase_ne _ hq]
            rfl
        refine ⟨hw2.trans hw1, hs2.trans hs1, hnd2, fun r => ?_⟩
        rw [hch r, hiw r]
        by_cases hra : r = a
        · subst hra
          rw [if_pos rfl, if_pos (List.mem_cons_self r L)]
          by_cases hl : r ∈ L
          · rw [if_pos hl]
          · rw [if_neg hl]
        · rw [if_neg hra]
          by_cases hl : r ∈ L
          · rw [if_pos hl, if_pos (List.mem_cons_of_mem a hl)]
          · rw [if_neg hl,
              if_neg (fun hc2 => hl ((List.mem_cons.mp hc2).resolve_left hra))]
    · rw [if_neg hc] at h
      simp only [Option.pure_def, Option.bind_eq_bind, Option.some_bind] at h
      obtain ⟨hw2, hs2, hnd2, hch⟩ := ih hnd h
      refine ⟨hw2, hs2, hnd2, fun r => ?_⟩
      rw [hch r]
      by_cases hra : r = a
      · subst hra
        rw [if_pos (List.mem_cons_self r L)]
        by_cases hl : r ∈ L
        · rw [if_pos hl]
        · rw [if_neg hl]
          exact bool_eq_false_of_ne_true hc
      · by_cases hl : r ∈ L
        · rw [if_pos hl, if_pos (List.mem_cons_of_mem a hl)]
        · rw [if_neg hl,
            if_neg (fun hc2 => hl ((List.mem_cons.mp hc2).resolve_left hra))]

theorem show_sectors_fold_spec {S : List Pos} {m m' : Model}
    (h : S.foldlM (fun m' s => show_sector m' s) m = some m') :
    m'.world = m.world ∧ m'.sectors = m.sectors ∧
    ((keys m.shown).Nodup → (keys m'.shown).Nodup) ∧
    ∀ r, isShownB m' r =
      (if (∃ s ∈ S, r ∈ bucketOf m s) ∧ exposed m r = true then true
       else isShownB m r) := by
  induction S generalizing m with
  | nil =>
    rw [List.foldlM_nil] at h
    cases h
    refine ⟨rfl, rfl, id, fun r => ?_⟩
    rw [if_neg (fun hc => by obtain ⟨⟨s, hs, _⟩, _⟩ := hc; exact List.not_mem_nil s hs)]
  | cons t S ih =>
    rw [List.foldlM_cons] at h
    cases hss : show_sector m t with
    | none =>
      rw [hss] at h
      simp at h
    | some m₁ =>
      rw [hss] at h
      simp only [Option.pure_def, Option.bind_eq_bind, Option.some_bind] at h
      unfold show_sector at hss
      obtain ⟨hw1, hs1, hnd1, hch1⟩ := show_fold_spec hss
      obtain ⟨hw2, hs2, hnd2, hch2⟩ := ih h
      have hbeq : ∀ s, bucketOf m₁ s = bucketOf m s := bucketOf_congr hs1
      have hexq : ∀ r, exposed m₁ r = exposed m r :=
        fun r => exposed_of_world_eq hw1 r
      refine ⟨hw2.trans hw1, hs2.trans hs1, fun hnd => hnd2 (hnd1 hnd), fun r => ?_⟩
      rw [hch2 r, hch1 r]
      by_cases hexp : exposed m r = true
      · by_cases hS : ∃ s ∈ S, r ∈ bucketOf m₁ s
        · rw [if_pos ⟨hS, (hexq r).trans hexp⟩]
          obtain ⟨s, hsS, hrs⟩ := hS
          rw [if_pos ⟨⟨s, List.mem_cons_of_mem t hsS, (hbeq s) ▸ hrs⟩, hexp⟩]
        · rw [if_neg (fun hc2 => hS hc2.1)]
          by_cases ht : r ∈ bucketOf m t
          · rw [if_pos ⟨ht, hexp⟩, if_pos ⟨⟨t, List.mem_cons_self t S, ht⟩, hexp⟩]
          · rw [if_neg (fun hc2 => ht hc2.1)]
            rw [if_neg ?hcond]
            case hcond =>
              rintro ⟨⟨s, hsS, hrs⟩, -⟩
              rcases List.mem_cons.mp hsS with he | hsS'
              · exact ht (he ▸ hrs)
              · exact hS ⟨s, hsS', (hbeq s).symm ▸ hrs⟩
      · rw [if_neg (fun hc2 => hexp ((hexq r).symm.trans hc2.2)),
          if_neg (fun hc2 => hexp hc2.2), if_neg (fun hc2 => hexp hc2.2)]

theorem hide_sectors_fold_spec {S : List Pos} {m m' : Model}
    (hnd : (keys m.shown).Nodup)
    (h : S.foldlM (fun m'' s => hide_sector m'' s) m = some m') :
    m'.world = m.world ∧ m'.sectors = m.sectors ∧ (keys m'.shown).Nodup ∧
    ∀ r, isShownB m' r =
      (if ∃ s ∈ S, r ∈ bucketOf m s then false else isShownB m r) := by
  induction S generalizing m with
  | nil =>
    rw [List.foldlM_nil] at h
    cases h
    refine ⟨rfl, rfl, hnd, fun r => ?_⟩
    rw [if_neg (fun hc => by obtain ⟨s, hs, _⟩ := hc; exact List.not_mem_nil s hs)]
  | cons t S ih =>
    rw [List.foldlM_cons] at h
    cases hss : hide_sector m t with
    | none =>
      rw [hss] at h
      simp at h
    | some m₁ =>
      rw [hss] at h
      simp only [Option.pure_def, Option.bind_eq_bind, Option.some_bind] at h
      unfold hide_sector at hss
      obtain ⟨hw1, hs1, hnd1, hch1⟩ := hide_fold_spec hnd hss
      obtain ⟨hw2, hs2, hnd2, hch2⟩ := ih hnd1 h
      have hbeq : ∀ s, bucketOf m₁ s = bucketOf m s := bucketOf_congr hs1
      refine ⟨hw2.trans hw1, hs2.trans hs1, hnd2, fun r => ?_⟩
      rw [hch2 r, hch1 r]
      by_cases hS : ∃ s ∈ S, r ∈ bucketOf m₁ s
      · rw [if_pos hS]
        obtain ⟨s, hsS, hrs⟩ := hS
        rw [if_pos ⟨s, List.mem_cons_of_mem t hsS, (hbeq s) ▸ hrs⟩]
      · rw [if_neg hS]
        by_cases ht : r ∈ bucketOf m t
        · rw [if_pos ht, if_pos ⟨t, List.mem_cons_self t S, ht⟩]
        · rw [if_neg ht, if_neg ?hcond]
          case hcond =>
            rintro ⟨s, hsS, hrs⟩
            rcases List.mem_cons.mp hsS with he | hsS'
            · exact ht (he ▸ hrs)
            · exact hS ⟨s, hsS', (hbeq s).symm ▸ hrs⟩

theorem change_sectors_spec {m m' : Model} {b a : Option Pos}
    (hnd : (keys m.shown).Nodup) (h : change_sectors m b a = some m') :
    m'.world = m.world ∧ m'.sectors = m.sectors ∧ (keys m'.shown).Nodup ∧
    ∀ r, isShownB m' r =
      (if ∃ s ∈ csHideList b a, r ∈ bucketOf m s then false
       else if (∃ s ∈ csShowList b a, r ∈ bucketOf m s) ∧ exposed m r = true
       then true else isShownB m r) := by
  unfold change_sectors at h
  rw [Option.bind_eq_some] at h
  obtain ⟨m₁, hshow, hhide⟩ := h
  obtain ⟨hw1, hs1, hnd1, hch1⟩ := show_sectors_fold_spec hshow
  obtain ⟨hw2, hs2, hnd2, hch2⟩ := hide_sectors_fold_spec (hnd1 hnd) hhide
  have hbeq : ∀ s, bucketOf m₁ s = bucketOf m s := bucketOf_congr hs1
  refine ⟨hw2.trans hw1, hs2.trans hs1, hnd2, fun r => ?_⟩
  rw [hch2 r, hch1 r]
  have hiffH : (∃ s ∈ csHideList b a, r ∈ bucketOf m₁ s) ↔
      (∃ s ∈ csHideList b a, r ∈ bucketOf m s) := by
    constructor
    · rintro ⟨s, hsS, hrs⟩
      exact ⟨s, hsS, (hbeq s) ▸ hrs⟩
    · rintro ⟨s, hsS, hrs⟩
      exact ⟨s, hsS, (hbeq s).symm ▸ hrs⟩
  by_cases hH : ∃ s ∈ csHideList b a, r ∈ bucketOf m s
  · rw [if_pos (hiffH.mpr hH), if_pos hH]
  · rw [if_neg (fun hc => hH (hiffH.mp hc)), if_neg hH]

/-- C7: calling `change_sectors(before, after)` twice in succession leaves
exactly the same shown set as calling it once: the second call performs no
net show or hide of any position. -/
theorem C7_change_sectors_idempotent (m : Model) (b a : Option Pos)
    (hnd : (keys m.shown).Nodup) :
    ∀ m₁ ∈ change_sectors m b a, ∀ m₂ ∈ change_sectors m₁ b a,
      ∀ r, isShownB m₂ r = isShownB m₁ r := by
  intro m₁ h₁ m₂ h₂ r
  rw [Option.mem_def] at h₁ h₂
  obtain ⟨hw1, hs1, hnd1, hch1⟩ := change_sectors_spec hnd h₁
  obtain ⟨hw2, hs2, hnd2, hch2⟩ := change_sectors_spec hnd1 h₂
  have hbeq : ∀ s, bucketOf m₁ s = bucketOf m s := bucketOf_congr hs1
  have hexq : ∀ q, exposed m₁ q = exposed m q :=
    fun q => exposed_of_world_eq hw1 q
  rw [hch2 r, hch1 r]
  have hiffH : (∃ s ∈ csHideList b a, r ∈ bucketOf m₁ s) ↔
      (∃ s ∈ csHideList b a, r ∈ bucketOf m s) := by
    constructor
    · rintro ⟨s, hsS, hrs⟩
      exact ⟨s, hsS, (hbeq s) ▸ hrs⟩
    · rintro ⟨s, hsS, hrs⟩
      exact ⟨s, hsS, (hbeq s).symm ▸ hrs⟩
  have hiffS : (∃ s ∈ csShowList b a, r ∈ bucketOf m₁ s) ↔
      (∃ s ∈ csShowList b a, r ∈ bucketOf m s) := by
    constructor
    · rintro ⟨s, hsS, hrs⟩
      exact ⟨s, hsS, (hbeq s) ▸ hrs⟩
    · rintro ⟨s, hsS, hrs⟩
      exact ⟨s, hsS, (hbeq s).symm ▸ hrs⟩
  by_cases hH : ∃ s ∈ csHideList b a, r ∈ bucketOf m s
  · rw [if_pos (hiffH.mpr hH), if_pos hH]
  · rw [if_neg (fun hc => hH (hiffH.mp hc)), if_neg hH]
    by_cases hS : (∃ s ∈ csShowList b a, r ∈ bucketOf m s) ∧ exposed m r = true
    · rw [if_pos ⟨hiffS.mpr hS.1, (hexq r).trans hS.2⟩, if_pos hS]
    · rw [if_neg (fun hc => hS ⟨hiffS.mp hc.1, (hexq r).symm.trans hc.2⟩),
        if_neg hS]

/-- C7 (witness): idempotence at the one-block store for the transition from
no sector to the origin sector. -/
theorem C7_witness :
    (keys mOne.shown).Nodup ∧
    (∀ m₁ ∈ change_sectors mOne none (some (0, 0, 0)),
      ∀ m₂ ∈ change_sectors m₁ none (some (0, 0, 0)),
        ∀ r, isShownB m₂ r = isShownB m₁ r) :=
  ⟨by decide, C7_change_sectors_idempotent mOne none (some (0, 0, 0)) (by decide)⟩


/-! ### Claim C8: remove_block failure semantics -/

theorem show_block_isSome {m : Model} {k : Pos} {imm : Bool} {n : String}
    (hn : alLookup m.world k = some n) (hB : (alLookup BLOCKS n).isSome = true) :
    (show_block m k imm).isSome = true := by
  rw [Option.isSome_iff_exists] at hB
  obtain ⟨c, hcc⟩ := hB
  unfold show_block
  simp only [hn, hcc]
  cases imm <;> simp

theorem hide_block_true_isSome {m : Model} {k : Pos}
    (hsh : isShownB m k = true) (hh : k ∈ keys m.handles) :
    (hide_block m k true).isSome = true := by
  rw [isShownB, Option.isSome_iff_exists] at hsh
  obtain ⟨c, hc⟩ := hsh
  rw [← alLookup_isSome_iff, Option.isSome_iff_exists] at hh
  obtain ⟨i, hi⟩ := hh
  have h1 : alPop k m.shown = some (c, alErase k m.shown) := by
    unfold alPop
    rw [hc]
  have h2 : alPop k m.handles = some (i, alErase k m.handles) := by
    unfold alPop
    rw [hi]
  unfold hide_block _hide_block
  simp [h1, h2]

theorem cn_step_progress {m : Model} (k : Pos)
    (hnd : (keys m.shown).Nodup) (hH : Handled m) (hN : NamesOK m) :
    ∃ m', check_neighbors_step m k = some m' ∧ (keys m'.shown).Nodup ∧
      Handled m' ∧ NamesOK m' := by
  unfold check_neighbors_step
  by_cases hw : inWorldB m k = false
  · rw [if_pos hw]
    exact ⟨m, rfl, hnd, hH, hN⟩
  · rw [if_neg hw]
    have hwt : inWorldB m k = true := bool_eq_true_of_ne_false hw
    by_cases hexp : exposed m k = true
    · rw [if_pos hexp]
      by_cases hsh : isShownB m k = true
      · rw [if_pos hsh]
        exact ⟨m, rfl, hnd, hH, hN⟩
      · rw [if_neg hsh]
        rw [inWorldB, Option.isSome_iff_exists] at hwt
        obtain ⟨n, hn⟩ := hwt
        have hB : (alLookup BLOCKS n).isSome = true :=
          hN (k, n) (alLookup_eq_some_mem hn)
        obtain ⟨m', hm'⟩ :=
          Option.isSome_iff_exists.mp (show_block_isSome hn hB)
        obtain ⟨n', c', hn', hc', hw', hs', hshw', himma, _⟩ := show_block_some hm'
        have hha := himma rfl
        refine ⟨m', hm', ?_, ?_, ?_⟩
        · rw [hshw']
          exact keys_insert_nodup hnd
        · intro e he
          rw [hshw'] at he
          rw [← alLookup_isSome_iff, hha.1]
          rcases mem_insert_cases he with he' | he'
          · rw [congrArg Prod.fst he']
            rw [alLookup_insert_self]
            rfl
          · by_cases hek : e.1 = k
            · rw [hek, alLookup_insert_self]
              rfl
            · rw [alLookup_insert_ne _ _ hek, alLookup_isSome_iff]
              exact hH e he'
        · intro e he
          rw [hw'] at he
          exact hN e he
    · rw [if_neg hexp]
      by_cases hsh : isShownB m k = true
      · rw [if_pos hsh]
        have hk : k ∈ keys m.handles := by
          have hsh' := hsh
          rw [isShownB, Option.isSome_iff_exists] at hsh'
          obtain ⟨c, hc⟩ := hsh'
          exact hH (k, c) (alLookup_eq_some_mem hc)
        obtain ⟨m', hm'⟩ :=
          Option.isSome_iff_exists.mp (hide_block_true_isSome hsh hk)
        obtain ⟨_, hw', hs', hshw', himma, _⟩ := hide_block_some hm'
        have hha := himma rfl
        refine ⟨m', hm', ?_, ?_, ?_⟩
        · rw [hshw']
          exact keys_erase_nodup hnd
        · intro e he
          rw [hshw'] at he
          have hne := ne_of_mem_erase_nodup hnd he
          rw [← alLookup_isSome_iff, hha.1, alLookup_erase_ne _ hne,
            alLookup_isSome_iff]
          exact hH e (mem_erase_sub he)
        · intro e he
          rw [hw'] at he
          exact hN e he
      · rw [if_neg hsh]
        exact ⟨m, rfl, hnd, hH, hN⟩

theorem cn_fold_progress (ks : List Pos) {m : Model}
    (hnd : (keys m.shown).Nodup) (hH : Handled m) (hN : NamesOK m) :
    ∃ m', ks.foldlM check_neighbors_step m = some m' ∧
      (keys m'.shown).Nodup ∧ Handled m' ∧ NamesOK m' := by
  induction ks generalizing m with
  | nil =>
    exact ⟨m, by rw [List.foldlM_nil]; rfl, hnd, hH, hN⟩
  | cons a ks ih =>
    obtain ⟨m₁, hstep, hnd₁, hH₁, hN₁⟩ := cn_step_progress a hnd hH hN
    obtain ⟨m', hfold, hnd', hH', hN'⟩ := ih hnd₁ hH₁ hN₁
    refine ⟨m', ?_, hnd', hH', hN'⟩
    rw [List.foldlM_cons, hstep]
    simp only [Option.pure_def, Option.bind_eq_bind, Option.some_bind]
    exact hfold

theorem remove_tail_progress {m₂ : Model} {p : Pos}
    (hnd : (keys m₂.shown).Nodup) (hH : Handled m₂) (hN : NamesOK m₂) :
    ((if isShownB m₂ p = true then hide_block m₂ p else some m₂).bind
      (fun m₃ => check_neighbors m₃ p)).isSome = true := by
  by_cases hsh : isShownB m₂ p = true
  · rw [if_pos hsh]
    have hk : p ∈ keys m₂.handles := by
      have hsh' := hsh
      rw [isShownB, Option.isSome_iff_exists] at hsh'
      obtain ⟨c, hc⟩ := hsh'
      exact hH (p, c) (alLookup_eq_some_mem hc)
    obtain ⟨m₃, hm₃⟩ :=
      Option.isSome_iff_exists.mp (hide_block_true_isSome hsh hk)
    obtain ⟨_, hw₃, hs₃, hshw₃, himma, _⟩ := hide_block_some hm₃
    have hha := himma rfl
    have hnd₃ : (keys m₃.shown).Nodup := by
      rw [hshw₃]
      exact keys_erase_nodup hnd
    have hH₃ : Handled m₃ := by
      intro e he
      rw [hshw₃] at he
      have hne := ne_of_mem_erase_nodup hnd he
      rw [← alLookup_isSome_iff, hha.1, alLookup_erase_ne _ hne,
        alLookup_isSome_iff]
      exact hH e (mem_erase_sub he)
    have hN₃ : NamesOK m₃ := by
      intro e he
      rw [hw₃] at he
      exact hN e he
    obtain ⟨m', hfold, _, _, _⟩ := cn_fold_progress (neighbors p) hnd₃ hH₃ hN₃
    rw [hm₃, Option.some_bind']
    unfold check_neighbors
    rw [hfold]
    rfl
  · rw [if_neg hsh, Option.some_bind']
    obtain ⟨m', hfold, _, _, _⟩ := cn_fold_progress (neighbors p) hnd hH hN
    unfold check_neighbors
    rw [hfold]
    rfl

theorem remove_block_progress {m : Model} {p : Pos} {imm : Bool}
    (hnd : (keys m.shown).Nodup) (hH : Handled m) (hN : NamesOK m) (hS : SInv m)
    (hp : inWorldB m p = true) : (remove_block m p imm).isSome = true := by
  have hp' := hp
  rw [inWorldB, Option.isSome_iff_exists] at hp'
  obtain ⟨n, hn⟩ := hp'
  have hcount : pcount p (bucketOf m (sectorize p)) = 1 :=
    hS.1 (p, n) (alLookup_eq_some_mem hn)
  have hpmem : p ∈ bucketOf m (sectorize p) := by
    by_contra hc
    rw [pcount_eq_zero.mpr hc] at hcount
    exact Nat.noConfusion hcount
  cases hlb : alLookup m.sectors (sectorize p) with
  | none =>
    rw [bucketOf, hlb] at hpmem
    simp at hpmem
  | some bucket =>
    have hpb : p ∈ bucket := by
      rw [bucketOf, hlb, Option.getD_some] at hpmem
      exact hpmem
    simp only [remove_block, hn, hlb]
    rw [if_pos hpb]
    cases imm with
    | false =>
      rw [if_neg (by decide)]
      rfl
    | true =>
      rw [if_pos (by trivial)]
      exact remove_tail_progress hnd hH (fun e he => hN e (mem_erase_sub he))

/-- C8 (counterexample): the claim is false as stated.  After a deferred
add and a sector show, the origin block is in `world` yet
`remove_block((0,0,0))` raises: the pending deferred `_show_block` means the
block is in `shown` without a geometry handle, so `_shown.pop` fails. -/
theorem C8_counterexample :
    ((add_block Model.empty (0, 0, 0) "dirt" false).bind
        (fun m => show_sector m (sectorize (0, 0, 0)))).map
      (fun m => (inWorldB m (0, 0, 0), remove_block m (0, 0, 0) true))
    = some (true, none) := by decide

/-- C8 (amended): `remove_block(p, immediate)` always fails when `p` is
absent from `world`; conversely it succeeds whenever `p` is present,
provided the state has no pending deferred show (every shown position has a
geometry handle), its block names resolve in `BLOCKS`, and the sector
invariant holds — without the no-pending-show condition a present position
can still fail, as the counterexample shows. -/
theorem C8_remove_error_amended :
    (∀ (m : Model) (p : Pos) (imm : Bool), inWorldB m p = false →
      remove_block m p imm = none) ∧
    (∀ (m : Model) (p : Pos) (imm : Bool), (keys m.shown).Nodup → Handled m →
      NamesOK m → SInv m → inWorldB m p = true →
      (remove_block m p imm).isSome = true) := by
  constructor
  · intro m p imm hp
    have hnone : alLookup m.world p = none := by
      cases hl : alLookup m.world p with
      | none => rfl
      | some v =>
        rw [inWorldB, hl] at hp
        exact Bool.noConfusion hp
    simp [remove_block, hnone]
  · intro m p imm hnd hH hN hS hp
    exact remove_block_progress hnd hH hN hS hp

/-- C8 (witness): both halves at concrete stores — failure on the empty
store, success on the fully materialized one-block store. -/
theorem C8_witness :
    (inWorldB Model.empty (0, 0, 0) = false ∧
      remove_block Model.empty (0, 0, 0) true = none) ∧
    ((keys mOne.shown).Nodup ∧ Handled mOne ∧ NamesOK mOne ∧ SInv mOne ∧
      inWorldB mOne (0, 0, 0) = true ∧
      (remove_block mOne (0, 0, 0) true).isSome = true) :=
  ⟨⟨by decide, C8_remove_error_amended.1 Model.empty (0, 0, 0) true (by decide)⟩,
   ⟨by decide, by decide, by decide, by decide, by decide,
     C8_remove_error_amended.2 mOne (0, 0, 0) true (by decide) (by decide)
       (by decide) (by decide) (by decide)⟩⟩

/-! ### Claim C9: terrain determinism per seed -/

/-- C9: terrain generation depends only on the three noise fields sampled at
seeds `seed`, `seed + 1`, `seed + 2` (octaves 7, 9, 10): two noise
collaborators that agree on those seeds generate identical worlds, so two
runs with the same seeded generators are identical. -/
theorem C9_terrain_determinism (s₁ s₂ : Nat → Int → ℚ × ℚ → ℚ) (seed : Int)
    (m : Model)
    (h : ∀ oct sd, sd = seed ∨ sd = seed + 1 ∨ sd = seed + 2 →
      s₁ oct sd = s₂ oct sd) :
    generateTerrainSeeded s₁ seed m = generateTerrainSeeded s₂ seed m := by
  unfold generateTerrainSeeded
  rw [h 7 seed (Or.inl rfl), h 9 (seed + 1) (Or.inr (Or.inl rfl)),
    h 10 (seed + 2) (Or.inr (Or.inr rfl))]

/-- C9 (witness): the determinism theorem at the repository seed
`WORLD_SEED = 3` with two (syntactically equal) zero noise fields. -/
theorem C9_witness :
    (∀ (oct : Nat) (sd : Int),
      sd = WORLD_SEED ∨ sd = WORLD_SEED + 1 ∨ sd = WORLD_SEED + 2 →
      (fun (_ : Nat) (_ : Int) (_ : ℚ × ℚ) => (0 : ℚ)) oct sd =
        (fun (_ : Nat) (_ : Int) (_ : ℚ × ℚ) => (0 : ℚ)) oct sd) ∧
    generateTerrainSeeded (fun _ _ _ => (0 : ℚ)) WORLD_SEED Model.empty =
      generateTerrainSeeded (fun _ _ _ => (0 : ℚ)) WORLD_SEED Model.empty :=
  ⟨fun _ _ _ => rfl,
    C9_terrain_determinism _ _ WORLD_SEED Model.empty (fun _ _ _ => rfl)⟩

end Minecraft
